import Mathlib

/-!
Verification of the date-extraction / inheritance / clustering / duplicate
pipeline of the document-chronology repository.

Shallow embedding conventions:
  * JavaScript strings are modelled as Lean `String` / `List Char` (UTF-16
    subtleties do not arise for the BMP texts considered here).
  * JavaScript numbers used as confidences are modelled as `Rat`
    (all constants of the source are decimal literals that the source only
    compares with `>=`, so `Rat` is faithful on every comparison performed).
  * `Date` objects are modelled by their day number since the Unix epoch
    (proleptic Gregorian calendar, as ECMAScript prescribes); the process
    time zone is assumed to be UTC, so `toISOString` renders exactly the
    stored calendar day.
  * JavaScript `Map` (which iterates in insertion order) is modelled as an
    association list to which new keys are appended at the end.
-/

/-! ## Character classes (ECMAScript `\w`, `\s`, digits) -/

/-- ECMAScript word character `\w` = `[A-Za-z0-9_]`. -/
def isWordCh (c : Char) : Bool :=
  ('A' ≤ c && c ≤ 'Z') || ('a' ≤ c && c ≤ 'z') || ('0' ≤ c && c ≤ '9') || c == '_'

/-- ECMAScript whitespace `\s` (ASCII part; the texts considered contain no
Unicode spaces). -/
def isWsCh (c : Char) : Bool :=
  c == ' ' || c == '\t' || c == '\n' || c == '\r' || c == '\x0b' || c == '\x0c'

/-- Per-character String.prototype.toLowerCase restricted to ASCII letters. -/
def jsToLower (c : Char) : Char :=
  if 65 ≤ c.toNat && c.toNat ≤ 90 then Char.ofNat (c.toNat + 32) else c

/-! ## `normalizeText` (findDates.ts lines 560-566)

```js
text.toLowerCase().replace(/[^\w\s]/g, "").replace(/\s+/g, " ").trim()
``` -/

/-- One pass of `replace(/\s+/g, " ")`: the flag records whether the previous
character belonged to a whitespace run already replaced. -/
def collapseWsGo : Bool → List Char → List Char
  | _, [] => []
  | prevWs, c :: cs =>
    if isWsCh c then
      if prevWs then collapseWsGo true cs
      else ' ' :: collapseWsGo true cs
    else c :: collapseWsGo false cs

def collapseWs (l : List Char) : List Char := collapseWsGo false l

def trimLeftWs (l : List Char) : List Char := l.dropWhile isWsCh

/-- Remove the trailing whitespace run. -/
def trimRightWs : List Char → List Char
  | [] => []
  | c :: cs =>
    match trimRightWs cs with
    | [] => if isWsCh c then [] else [c]
    | r => c :: r

/-- Model of String.prototype.trim. -/
def trimWs (l : List Char) : List Char := trimRightWs (trimLeftWs l)

def keepWordOrWs (c : Char) : Bool := isWordCh c || isWsCh c

def normalizeChars (l : List Char) : List Char :=
  trimWs (collapseWs ((l.map jsToLower).filter keepWordOrWs))

/-- Function normalizeText from the source: lowercase, strip `[^\w\s]`, collapse
whitespace runs to one space, trim. -/
def normalizeText (s : String) : String := String.mk (normalizeChars s.toList)

/-! ## Rational constants of the source

The decimal literals of the source (0.2, 0.7, 0.8, 0.9, 0.95) are written
as rationals in lowest terms so that every comparison the code performs on
them is kernel-computable. -/

def rat02 : Rat := Rat.mk' 1 5

def rat07 : Rat := Rat.mk' 7 10

def rat08 : Rat := Rat.mk' 4 5

def rat09 : Rat := Rat.mk' 9 10

def rat095 : Rat := Rat.mk' 19 20

/-! ## Chronology data model (lib/types/chronology.ts) -/

inductive PagePosition where
  | top
  | middle
  | bottom
deriving DecidableEq

inductive DateClassification where
  | date_of_service
  | dob
  | referenced
  | fax
  | unknown
deriving DecidableEq

inductive DateSource where
  | heuristic
  | llm
  | inherited
  | none
deriving DecidableEq

structure DateContext where
  before : String
  after : String
deriving DecidableEq

structure ExtractedDate where
  raw : String
  iso : String
  context : DateContext
  position : PagePosition
  offset : Nat
  classification : DateClassification
  confidence : Rat
deriving DecidableEq

structure PageResult where
  pageNumber : Nat
  text : String
  extractedDates : List ExtractedDate
  dateOfService : Option String
  dateSource : DateSource
  inheritedFrom : Option Nat
  documentType : Option String
deriving DecidableEq

structure PageCluster where
  id : String
  dateOfService : String
  pages : List Nat
  primaryPage : Nat
  documentType : Option String
deriving DecidableEq

/-- JavaScript truthiness of a `string | null | undefined` value:
`null`, `undefined` and the empty string are falsy. -/
def jsTruthy : Option String → Bool
  | Option.none => false
  | Option.some s => !(s == "")

/-! ## `selectDateOfService` (findDates.ts lines 517-550) -/

/-- The predicate of `dates.find(...)` in the source: high-confidence
date-of-service classification. -/
def isHighConfDos (d : ExtractedDate) : Bool :=
  d.classification == DateClassification.date_of_service && rat08 ≤ d.confidence

/-- The predicate of `dates.filter(...)` in the source: neither DOB nor fax. -/
def isNotDobFax (d : ExtractedDate) : Bool :=
  !(d.classification == DateClassification.dob) && !(d.classification == DateClassification.fax)

structure SelectedDOS where
  date : String
  confident : Bool
deriving DecidableEq

def selectDateOfService (dates : List ExtractedDate) : Option SelectedDOS :=
  if dates.length == 0 then Option.none
  else
    match dates.find? isHighConfDos with
    | Option.some d => Option.some ⟨d.iso, true⟩
    | Option.none =>
      let candidates := dates.filter isNotDobFax
      if candidates.length == 0 then Option.none
      else
        let topDates := candidates.filter (fun d => d.position == PagePosition.top)
        if topDates.length == 1 then topDates.head?.map (fun d => SelectedDOS.mk d.iso false)
        else if candidates.length == 1 then candidates.head?.map (fun d => SelectedDOS.mk d.iso false)
        else candidates.head?.map (fun d => SelectedDOS.mk d.iso false)

/-! ## `applyInheritance` (app/api/cluster/route.ts lines 21-45) -/

/-- The guard of the first branch:
`page.dateOfService && page.dateSource !== "none"`. -/
def hasOwnDate (p : PageResult) : Bool :=
  jsTruthy p.dateOfService && !(p.dateSource == DateSource.none)

def inheritFromPage (lp p : PageResult) : PageResult :=
  { p with
    dateOfService := lp.dateOfService
    dateSource := DateSource.inherited
    inheritedFrom := Option.some lp.pageNumber }

def applyInheritanceAux : Option PageResult → List PageResult → List PageResult
  | _, [] => []
  | last, p :: ps =>
    if hasOwnDate p then p :: applyInheritanceAux (Option.some p) ps
    else
      match last with
      | Option.some lp => inheritFromPage lp p :: applyInheritanceAux (Option.some lp) ps
      | Option.none => p :: applyInheritanceAux Option.none ps

def applyInheritance (pages : List PageResult) : List PageResult :=
  applyInheritanceAux Option.none pages

/-! ## Calendar arithmetic for the `Date` model -/

/-- Days since 1970-01-01 of a proleptic-Gregorian civil date
(Howard Hinnant's `days_from_civil`); `m` is 1-based. -/
def daysFromCivil (y m d : Int) : Int :=
  let y1 := if m ≤ 2 then y - 1 else y
  let era := Int.fdiv y1 400
  let yoe := y1 - era * 400
  let mp := if 2 < m then m - 3 else m + 9
  let doy := (153 * mp + 2) / 5 + d - 1
  let doe := yoe * 365 + yoe / 4 - yoe / 100 + doy
  era * 146097 + doe - 719468

/-- Inverse of `daysFromCivil` (Hinnant's `civil_from_days`). -/
def civilFromDays (z0 : Int) : Int × Int × Int :=
  let z := z0 + 719468
  let era := Int.fdiv z 146097
  let doe := z - era * 146097
  let yoe := (doe - doe / 1460 + doe / 36524 - doe / 146096) / 365
  let y := yoe + era * 400
  let doy := doe - (365 * yoe + yoe / 4 - yoe / 100)
  let mp := (5 * doy + 2) / 153
  let d := doy - (153 * mp + 2) / 5 + 1
  let m := if mp < 10 then mp + 3 else mp - 9
  (if m ≤ 2 then y + 1 else y, m, d)

/-- Model of new Date(year, monthIndex, day) normalisation: the 0-99 year rule of the
constructor, then month/day rollover.  Returns the day number since epoch. -/
def jsMakeDay (y mIdx d : Int) : Int :=
  let y1 := if 0 ≤ y && y ≤ 99 then y + 1900 else y
  let ymTotal := y1 * 12 + mIdx
  let yy := Int.fdiv ymTotal 12
  let mm := ymTotal - yy * 12
  daysFromCivil yy (mm + 1) 1 + (d - 1)

/-- Validity guard not-isNaN(date.getTime()): the time value must lie within
8.64e15 milliseconds of the epoch. -/
def jsDateValid (day : Int) : Bool := (day * 86400000).natAbs ≤ 8640000000000000

def padNat (width : Nat) (n : Nat) : String :=
  let s := Nat.repr n
  if s.length < width then String.mk (List.replicate (width - s.length) '0') ++ s else s

/-- Model of date.toISOString().split at T, first component, under the UTC time-zone assumption. -/
def jsDateIso (day : Int) : String :=
  let c := civilFromDays day
  padNat 4 c.1.natAbs ++ "-" ++ padNat 2 c.2.1.natAbs ++ "-" ++ padNat 2 c.2.2.natAbs

/-! ## `buildClusters` (app/api/cluster/route.ts lines 50-91) -/

structure ClusterData where
  pages : List Nat
  primaryPage : Nat
  documentType : Option String
deriving DecidableEq

/-- Map upsert: clusterMap.get(key) followed by push/set: update the existing entry in
place, or append a fresh entry at the end (JS `Map` iterates in insertion
order). -/
def upsertCluster (key : String) (pn : Nat) (dt : Option String) :
    List (String × ClusterData) → List (String × ClusterData)
  | [] => [(key, ⟨[pn], pn, dt⟩)]
  | (k, d) :: rest =>
    if k = key then (k, { d with pages := d.pages ++ [pn] }) :: rest
    else (k, d) :: upsertCluster key pn dt rest

/-- The page loop building clusterMap. -/
def clusterFold (acc : List (String × ClusterData)) :
    List PageResult → List (String × ClusterData)
  | [] => acc
  | p :: ps =>
    if jsTruthy p.dateOfService then
      clusterFold (upsertCluster (p.dateOfService.getD "") p.pageNumber p.documentType acc) ps
    else clusterFold acc ps

def clusterOfEntry : String × ClusterData → PageCluster
  | (k, d) =>
    { id := "cluster-" ++ k ++ "-" ++ Nat.repr d.primaryPage
      dateOfService := k
      pages := d.pages
      primaryPage := d.primaryPage
      documentType := d.documentType }

/-- Model of new Date(s).getTime() for a canonical `YYYY-MM-DD` string (the only
shape the pipeline stores in `dateOfService`); strings not of that shape
would give `NaN` in JavaScript and are mapped to the junk value 0 here, so
theorems about the sort assume canonical inputs. -/
def parseIsoDateOnly (s : String) : Option (Int × Int × Int) :=
  match s.toList with
  | [y1, y2, y3, y4, s1, m1, m2, s2, d1, d2] =>
    if (y1.isDigit && y2.isDigit && y3.isDigit && y4.isDigit &&
        (s1 == '-') && m1.isDigit && m2.isDigit && (s2 == '-') &&
        d1.isDigit && d2.isDigit) then
      let y : Int := Int.ofNat (((y1.toNat - 48) * 10 + (y2.toNat - 48)) * 100 +
        ((y3.toNat - 48) * 10 + (y4.toNat - 48)))
      let m : Int := Int.ofNat ((m1.toNat - 48) * 10 + (m2.toNat - 48))
      let d : Int := Int.ofNat ((d1.toNat - 48) * 10 + (d2.toNat - 48))
      let dim : Int :=
        if m = 1 ∨ m = 3 ∨ m = 5 ∨ m = 7 ∨ m = 8 ∨ m = 10 ∨ m = 12 then 31
        else if m = 4 ∨ m = 6 ∨ m = 9 ∨ m = 11 then 30
        else if (y % 4 = 0 ∧ y % 100 ≠ 0) ∨ y % 400 = 0 then 29
        else 28
      if 1 ≤ m ∧ m ≤ 12 ∧ 1 ≤ d ∧ d ≤ dim then Option.some (y, m, d) else Option.none
    else Option.none
  | _ => Option.none

def newDateMs (s : String) : Int :=
  match parseIsoDateOnly s with
  | Option.some c => daysFromCivil c.1 c.2.1 c.2.2 * 86400000
  | Option.none => 0

/-- The sort comparator
`(a, b) => new Date(a.dateOfService).getTime() - new Date(b.dateOfService).getTime()`
as a relation. -/
def clusterLE (a b : PageCluster) : Prop :=
  newDateMs a.dateOfService ≤ newDateMs b.dateOfService

instance : DecidableRel clusterLE := fun a b => Int.decLe _ _

instance : IsTotal PageCluster clusterLE :=
  ⟨fun a b => Int.le_total (newDateMs a.dateOfService) (newDateMs b.dateOfService)⟩

instance : IsTrans PageCluster clusterLE :=
  ⟨fun _ _ _ h1 h2 => Int.le_trans h1 h2⟩

/-- Function buildClusters: group by date string in insertion order, then sort the
cluster array chronologically (a stable sort, as ECMAScript requires). -/
def buildClusters (pages : List PageResult) : List PageCluster :=
  List.insertionSort clusterLE ((clusterFold [] pages).map clusterOfEntry)

/-- Computation of undatedPages from the POST handler (lines 113-118): pages still without
a (truthy) date after inheritance. -/
def undatedPages (pages : List PageResult) : List Nat :=
  (pages.filter (fun p => !(jsTruthy p.dateOfService))).map (fun p => p.pageNumber)

/-! ## Exact-duplicate grouping (app/api/duplicates/[pageId]/route.ts, GET) -/

/-- The page row shape selected from the database for duplicate detection. -/
structure DupPage where
  id : String
  pageNumber : Nat
  textHash : Option String
  simHash : Option String
deriving DecidableEq

structure DupMember where
  id : String
  pageNumber : Nat
  similarity : Rat
deriving DecidableEq

structure DuplicateGroup where
  pages : List DupMember
  primaryPageId : String
  primaryPageNumber : Nat
deriving DecidableEq

/-- Map upsert: exactHashGroups.get(h) appended to and stored back: append the page to
the group of its hash, creating the group at the end of the map if new. -/
def upsertHashGroup (key : String) (p : DupPage) :
    List (String × List DupPage) → List (String × List DupPage)
  | [] => [(key, [p])]
  | (k, g) :: rest =>
    if k = key then (k, g ++ [p]) :: rest
    else (k, g) :: upsertHashGroup key p rest

/-- The page loop grouping by textHash, skipping pages with a falsy hash. -/
def hashGroupFold (acc : List (String × List DupPage)) :
    List DupPage → List (String × List DupPage)
  | [] => acc
  | p :: ps =>
    if jsTruthy p.textHash then
      hashGroupFold (upsertHashGroup (p.textHash.getD "") p acc) ps
    else hashGroupFold acc ps

/-- Conversion of a hash partition with at least two members into an
exact-duplicate group: the first member is primary, every member reports
similarity 1.0. -/
def exactGroupOfEntry (g : List DupPage) : DuplicateGroup :=
  { primaryPageId := (g.head?.map (fun p => p.id)).getD ""
    primaryPageNumber := (g.head?.map (fun p => p.pageNumber)).getD 0
    pages := g.map (fun p => DupMember.mk p.id p.pageNumber 1) }

/-- Pass 1 of the duplicates GET handler: partitions with ≥ 2 members become
exact-duplicate groups, in map iteration order. -/
def exactDuplicates (pages : List DupPage) : List DuplicateGroup :=
  ((hashGroupFold [] pages).filter (fun e => 1 < e.2.length)).map
    (fun e => exactGroupOfEntry e.2)

/-! ## A small backtracking matcher for the source's regular expressions

The source patterns use only character classes, literals, ordered
alternation, greedy optional/repetition and word boundaries, so ECMAScript
matching (leftmost position, first alternative, greedy with backtracking) is
modelled by continuation-passing matchers that explore candidates in exactly
that preference order and return the first success. -/

/-- A matcher receives the text, a position, and a continuation; it feeds the
continuation the positions after each way of matching, in ECMAScript
preference order, returning the first success. -/
abbrev RexM := Array Char → Nat → (Nat → Option Nat) → Option Nat

/-- Match a single character of a class. -/
def mcls (p : Char → Bool) : RexM := fun t i k =>
  match t[i]? with
  | Option.some c => if p c then k (i + 1) else Option.none
  | Option.none => Option.none

def mchr (c : Char) : RexM := mcls (fun x => x == c)

def mseq (a b : RexM) : RexM := fun t i k => a t i (fun j => b t j k)

/-- Ordered alternation: the left alternative (with its whole continuation)
is preferred. -/
def malt (a b : RexM) : RexM := fun t i k => (a t i k).orElse (fun _ => b t i k)

def meps : RexM := fun _ i k => k i

/-- Greedy `?`. -/
def mopt (a : RexM) : RexM := malt a meps

def mstr (s : String) : RexM := s.toList.foldr (fun c acc => mseq (mchr c) acc) meps

/-- ECMAScript word boundary: word-ness differs between the previous and next
character (out-of-range counts as non-word). -/
def mwordB : RexM := fun t i k =>
  let prev := match i with
    | 0 => false
    | j + 1 => ((t[j]?.map isWordCh).getD false)
  let cur := ((t[i]?.map isWordCh).getD false)
  if prev != cur then k i else Option.none

/-- Length of the maximal run of class characters starting at `j`. -/
def runLenGo (p : Char → Bool) (t : Array Char) : Nat → Nat → Nat
  | 0, _ => 0
  | fuel + 1, j =>
    match t[j]? with
    | Option.some c => if p c then runLenGo p t fuel (j + 1) + 1 else 0
    | Option.none => 0

def runLen (p : Char → Bool) (t : Array Char) (i : Nat) : Nat :=
  runLenGo p t (t.size + 1 - i) i

/-- Try continuation at `i + len`, `i + len - 1`, ..., `i + minLen`
(greedy backtracking order for a single-character-class repetition). -/
def tryLens (k : Nat → Option Nat) (i minLen : Nat) : Nat → Option Nat
  | 0 => if minLen = 0 then k i else Option.none
  | len + 1 =>
    if len + 1 < minLen then Option.none
    else (k (i + len + 1)).orElse (fun _ => tryLens k i minLen len)

/-- Greedy repetition of a single-character class, at least `minLen` times. -/
def mrep (p : Char → Bool) (minLen : Nat) : RexM := fun t i k =>
  tryLens k i minLen (runLen p t i)

/-! ### The eight surface-form patterns of `DATE_RE` (findDates.ts)

The union carries the `i` flag, so matching is performed on the lowercased
text; all pattern literals below are lowercase. -/

def mdigit : RexM := mcls Char.isDigit

/-- Century fragment: 19 or 20. -/
def mcentury : RexM := malt (mstr "19") (mstr "20")

/-- Separator class: dash, slash or dot. -/
def msep3 : RexM := mcls (fun c => c == '-' || c == '/' || c == '.')

/-- Month number fragment: optional-zero 1-9, or 10-12. -/
def mmonthNum : RexM :=
  malt (mseq (mopt (mchr '0')) (mcls (fun c => '1' ≤ c && c ≤ '9')))
    (mseq (mchr '1') (mcls (fun c => c == '0' || c == '1' || c == '2')))

/-- Day number fragment: optional-zero 1-9, 10-29, or 30-31. -/
def mday31 : RexM :=
  malt (mseq (mopt (mchr '0')) (mcls (fun c => '1' ≤ c && c ≤ '9')))
    (malt (mseq (mcls (fun c => c == '1' || c == '2')) mdigit)
      (mseq (mchr '3') (mcls (fun c => c == '0' || c == '1'))))

/-- Year fragment: optional century then two digits. -/
def myear2or4 : RexM := mseq (mopt mcentury) (mseq mdigit mdigit)

/-- Ordinal suffix fragment: optional st, nd, rd or th. -/
def mordSuffix : RexM :=
  mopt (malt (mstr "st") (malt (mstr "nd") (malt (mstr "rd") (mstr "th"))))

def mwsPlus : RexM := mrep isWsCh 1

/-- The `MONTH` alternation of the source, in source order. -/
def mmonthName : RexM :=
  malt (mseq (mstr "jan") (mopt (mstr "uary")))
    (malt (mseq (mstr "feb") (mopt (mstr "ruary")))
      (malt (mseq (mstr "mar") (mopt (mstr "ch")))
        (malt (mseq (mstr "apr") (mopt (mstr "il")))
          (malt (mstr "may")
            (malt (mseq (mstr "jun") (mopt (mstr "e")))
              (malt (mseq (mstr "jul") (mopt (mstr "y")))
                (malt (mseq (mstr "aug") (mopt (mstr "ust")))
                  (malt (mseq (mstr "sep") (mopt (mseq (mstr "t") (mopt (mstr "ember")))))
                    (malt (mseq (mstr "oct") (mopt (mstr "ober")))
                      (malt (mseq (mstr "nov") (mopt (mstr "ember")))
                        (mseq (mstr "dec") (mopt (mstr "ember")))))))))))))

/-- Source pattern isoYmd: word boundary, century + 2 digits, separator, month, separator, day, word boundary. -/
def misoYmd : RexM :=
  mseq mwordB (mseq mcentury (mseq mdigit (mseq mdigit
    (mseq msep3 (mseq mmonthNum (mseq msep3 (mseq mday31 mwordB)))))))

/-- Source pattern dmy: day, separator, month, separator, 2-or-4-digit year, inside word boundaries. -/
def mdmy : RexM :=
  mseq mwordB (mseq mday31 (mseq msep3 (mseq mmonthNum
    (mseq msep3 (mseq myear2or4 mwordB)))))

/-- Source pattern mdy: month, separator, day, separator, 2-or-4-digit year, inside word boundaries. -/
def mmdy : RexM :=
  mseq mwordB (mseq mmonthNum (mseq msep3 (mseq mday31
    (mseq msep3 (mseq myear2or4 mwordB)))))

/-- Source pattern compactYmd: 4-digit year, zero-padded month, zero-padded day, inside word boundaries. -/
def mcompactYmd : RexM :=
  mseq mwordB (mseq mcentury (mseq mdigit (mseq mdigit
    (mseq (malt (mseq (mchr '0') (mcls (fun c => '1' ≤ c && c ≤ '9')))
        (mseq (mchr '1') (mcls (fun c => c == '0' || c == '1' || c == '2'))))
      (mseq (malt (mseq (mchr '0') (mcls (fun c => '1' ≤ c && c ≤ '9')))
          (malt (mseq (mcls (fun c => c == '1' || c == '2')) mdigit)
            (mseq (mchr '3') (mcls (fun c => c == '0' || c == '1')))))
        mwordB)))))

/-- Source pattern monthDayYear: month name, whitespace, day with optional ordinal suffix, optional comma, whitespace, year. -/
def mmonthDayYear : RexM :=
  mseq mwordB (mseq mmonthName (mseq mwsPlus (mseq mday31
    (mseq mordSuffix (mseq (mopt (mchr ',')) (mseq mwsPlus (mseq myear2or4 mwordB)))))))

/-- Source pattern dayMonthYear: day with optional ordinal suffix, whitespace, optional of-phrase, month name, optional comma, whitespace, year. -/
def mdayMonthYear : RexM :=
  mseq mwordB (mseq mday31 (mseq mordSuffix (mseq mwsPlus
    (mseq (mopt (mseq (mstr "of") mwsPlus)) (mseq mmonthName
      (mseq (mopt (mchr ',')) (mseq mwsPlus (mseq myear2or4 mwordB))))))))

/-- Source pattern monthYear: month name, whitespace, 4-digit year. -/
def mmonthYear : RexM :=
  mseq mwordB (mseq mmonthName (mseq mwsPlus
    (mseq mcentury (mseq mdigit (mseq mdigit mwordB)))))

/-- Source pattern numericMonthYear: month number, dash or slash, 4-digit year. -/
def mnumericMonthYear : RexM :=
  mseq mwordB (mseq mmonthNum (mseq (mcls (fun c => c == '-' || c == '/'))
    (mseq mcentury (mseq mdigit (mseq mdigit mwordB)))))

/-- Union DATE_RE of the eight patterns, tried in source order. -/
def dateReM : RexM :=
  malt misoYmd (malt mdmy (malt mmdy (malt mcompactYmd
    (malt mmonthDayYear (malt mdayMonthYear (malt mmonthYear mnumericMonthYear))))))

/-- The end position of the preferred match of `DATE_RE` starting exactly at
`i`, if any. -/
def matchDateAt (t : Array Char) (i : Nat) : Option Nat := dateReM t i Option.some

/-- The global exec loop: repeatedly
find the leftmost match at or after the current position and resume after
it.  All `DATE_RE` alternatives consume at least one character, so
`lastIndex` always advances. -/
def scanAllGo (t : Array Char) : Nat → Nat → List (Nat × Nat)
  | 0, _ => []
  | fuel + 1, i =>
    if t.size < i then []
    else
      match matchDateAt t i with
      | Option.some e => (i, e) :: scanAllGo t fuel (Nat.max e (i + 1))
      | Option.none => scanAllGo t fuel (i + 1)

/-- All (start, end) match extents of the global case-insensitive `DATE_RE`
over the (already lowercased) text. -/
def scanAll (t : Array Char) : List (Nat × Nat) := scanAllGo t (t.size + 2) 0

/-! ## `parseDate` (findDates.ts lines 291-395)

The anchored capture regexes of `parseDate` are rendered as functional
parsers that enumerate capture splits in greedy backtracking order. -/

def firstSome : List α → (α → Option β) → Option β
  | [], _ => Option.none
  | a :: as, f => (f a).orElse (fun _ => firstSome as f)

/-- Candidate `(captured, rest)` splits for a single-character-class
repetition `{minL,maxL}`, longest first. -/
def splitsDesc (p : Char → Bool) (minL maxL : Nat) (cs : List Char) :
    List (List Char × List Char) :=
  let run := Nat.min (cs.takeWhile p).length maxL
  (List.range (run + 1)).reverse.filterMap
    (fun n => if minL ≤ n then Option.some (cs.take n, cs.drop n) else Option.none)

def stripLit (lit : List Char) (cs : List Char) : Option (List Char) :=
  if cs.take lit.length = lit then Option.some (cs.drop lit.length) else Option.none

/-- Ordinal suffix candidates: rests after consuming each alternative (source order), then the no-consumption rest. -/
def ordSuffixRests (cs : List Char) : List (List Char) :=
  (List.filterMap (fun l => stripLit l cs)
    [['s', 't'], ['n', 'd'], ['r', 'd'], ['t', 'h']]) ++ [cs]

/-- Optional comma (greedy). -/
def optCommaRests (cs : List Char) : List (List Char) :=
  match cs with
  | ',' :: r => [r, cs]
  | _ => [cs]

/-- Optional of-plus-whitespace prefix (greedy). -/
def ofRests (cs : List Char) : List (List Char) :=
  (match stripLit ['o', 'f'] cs with
   | Option.some r => (splitsDesc isWsCh 1 r.length r).map (fun s => s.2)
   | Option.none => []) ++ [cs]

def isDashSlashDot (c : Char) : Bool := c == '-' || c == '/' || c == '.'

def isDashSlash (c : Char) : Bool := c == '-' || c == '/'

def isAsciiLower (c : Char) : Bool := 'a' ≤ c && c ≤ 'z'

/-- Anchored three-component numeric date pattern with the given digit-count bounds and a separator class. -/
def execSep3 (sepP : Char → Bool) (l1a l1b l2a l2b l3a l3b : Nat)
    (cs : List Char) : Option (String × String × String) :=
  firstSome (splitsDesc Char.isDigit l1a l1b cs) fun s1 =>
  match s1.2 with
  | c :: r1 =>
    if sepP c then
      firstSome (splitsDesc Char.isDigit l2a l2b r1) fun s2 =>
      match s2.2 with
      | c2 :: r2 =>
        if sepP c2 then
          firstSome (splitsDesc Char.isDigit l3a l3b r2) fun s3 =>
          if s3.2.isEmpty then
            Option.some (String.mk s1.1, String.mk s2.1, String.mk s3.1)
          else Option.none
        else Option.none
      | [] => Option.none
    else Option.none
  | [] => Option.none

/-- Anchored compact pattern: 4 digits, 2 digits, 2 digits. -/
def execCompact (cs : List Char) : Option (String × String × String) :=
  if cs.length = 8 && cs.all Char.isDigit then
    Option.some (String.mk (cs.take 4), String.mk ((cs.drop 4).take 2),
      String.mk (cs.drop 6))
  else Option.none

/-- Anchored month-name day year pattern of parseDate. -/
def execMonthDY (cs : List Char) : Option (String × String × String) :=
  firstSome (splitsDesc isAsciiLower 1 cs.length cs) fun sm =>
  firstSome (splitsDesc isWsCh 1 sm.2.length sm.2) fun sw =>
  firstSome (splitsDesc Char.isDigit 1 2 sw.2) fun sd =>
  firstSome (ordSuffixRests sd.2) fun r1 =>
  firstSome (splitsDesc isWsCh 0 r1.length r1) fun sw2 =>
  firstSome (optCommaRests sw2.2) fun r2 =>
  firstSome (splitsDesc isWsCh 0 r2.length r2) fun sw3 =>
  firstSome (splitsDesc Char.isDigit 2 4 sw3.2) fun sy =>
  if sy.2.isEmpty then
    Option.some (String.mk sm.1, String.mk sd.1, String.mk sy.1)
  else Option.none

/-- Anchored day month-name year pattern of parseDate. -/
def execDayMY (cs : List Char) : Option (String × String × String) :=
  firstSome (splitsDesc Char.isDigit 1 2 cs) fun sd =>
  firstSome (ordSuffixRests sd.2) fun r1 =>
  firstSome (splitsDesc isWsCh 1 r1.length r1) fun sw =>
  firstSome (ofRests sw.2) fun r2 =>
  firstSome (splitsDesc isAsciiLower 1 r2.length r2) fun sm =>
  firstSome (splitsDesc isWsCh 0 sm.2.length sm.2) fun sw2 =>
  firstSome (optCommaRests sw2.2) fun r3 =>
  firstSome (splitsDesc isWsCh 0 r3.length r3) fun sw3 =>
  firstSome (splitsDesc Char.isDigit 2 4 sw3.2) fun sy =>
  if sy.2.isEmpty then
    Option.some (String.mk sd.1, String.mk sm.1, String.mk sy.1)
  else Option.none

/-- Anchored month-name year pattern of parseDate. -/
def execMonthY (cs : List Char) : Option (String × String) :=
  firstSome (splitsDesc isAsciiLower 1 cs.length cs) fun sm =>
  firstSome (splitsDesc isWsCh 1 sm.2.length sm.2) fun sw =>
  firstSome (splitsDesc Char.isDigit 4 4 sw.2) fun sy =>
  if sy.2.isEmpty then Option.some (String.mk sm.1, String.mk sy.1) else Option.none

/-- Anchored numeric month slash-or-dash year pattern of parseDate. -/
def execNumMY (cs : List Char) : Option (String × String) :=
  firstSome (splitsDesc Char.isDigit 1 2 cs) fun sm =>
  match sm.2 with
  | c :: r1 =>
    if isDashSlash c then
      firstSome (splitsDesc Char.isDigit 4 4 r1) fun sy =>
      if sy.2.isEmpty then Option.some (String.mk sm.1, String.mk sy.1) else Option.none
    else Option.none
  | [] => Option.none

/-- Semantics of parseInt on an all-digit capture. -/
def parseIntDigits (s : String) : Int :=
  Int.ofNat (s.toList.foldl (fun acc c => acc * 10 + (c.toNat - 48)) 0)

/-- Lookup in the monthNames record (0-based month index). -/
def monthNameNum (s : String) : Option Int :=
  if s == "jan" || s == "january" then Option.some 0
  else if s == "feb" || s == "february" then Option.some 1
  else if s == "mar" || s == "march" then Option.some 2
  else if s == "apr" || s == "april" then Option.some 3
  else if s == "may" then Option.some 4
  else if s == "jun" || s == "june" then Option.some 5
  else if s == "jul" || s == "july" then Option.some 6
  else if s == "aug" || s == "august" then Option.some 7
  else if s == "sep" || s == "sept" || s == "september" then Option.some 8
  else if s == "oct" || s == "october" then Option.some 9
  else if s == "nov" || s == "november" then Option.some 10
  else if s == "dec" || s == "december" then Option.some 11
  else Option.none

structure JSDate where
  day : Int
deriving DecidableEq

/-- Model of new Date(y, mIdx, d) followed by the not-isNaN guard. -/
def tryDate (y mIdx d : Int) : Option JSDate :=
  let t := jsMakeDay y mIdx d
  if jsDateValid t then Option.some ⟨t⟩ else Option.none

/-- Two-digit capture goes to the 2000s: `p.length === 2 ? 2000 + parseInt(p) : parseInt(p)`. -/
def yearOfCapture (p : String) : Int :=
  if p.length = 2 then 2000 + parseIntDigits p else parseIntDigits p

/-- Stage of parseDate for `formats[0]` (ISO). -/
def stageIso (cs : List Char) : Option JSDate :=
  match execSep3 isDashSlashDot 4 4 1 2 1 2 cs with
  | Option.some c => tryDate (parseIntDigits c.1) (parseIntDigits c.2.1 - 1) (parseIntDigits c.2.2)
  | Option.none => Option.none

/-- Stage of parseDate for `formats[2]` (compact). -/
def stageCompact (cs : List Char) : Option JSDate :=
  match execCompact cs with
  | Option.some c => tryDate (parseIntDigits c.1) (parseIntDigits c.2.1 - 1) (parseIntDigits c.2.2)
  | Option.none => Option.none

/-- Stage of parseDate for `formats[1]`: try MDY first (needs `p1 <= 12`),
then DMY. -/
def stageDmyMdy (cs : List Char) : Option JSDate :=
  match execSep3 isDashSlashDot 1 2 1 2 2 4 cs with
  | Option.some c =>
    let p1 := c.1
    let p2 := c.2.1
    let year := yearOfCapture c.2.2
    let t1 := jsMakeDay year (parseIntDigits p1 - 1) (parseIntDigits p2)
    if jsDateValid t1 && parseIntDigits p1 ≤ 12 then Option.some ⟨t1⟩
    else
      let t2 := jsMakeDay year (parseIntDigits p2 - 1) (parseIntDigits p1)
      if jsDateValid t2 then Option.some ⟨t2⟩ else Option.none
  | Option.none => Option.none

/-- Stage of parseDate for `Month Day Year` on the normalized string. -/
def stageMonthDY (cs : List Char) : Option JSDate :=
  match execMonthDY cs with
  | Option.some c =>
    match monthNameNum c.1 with
    | Option.some mn => tryDate (yearOfCapture c.2.2) mn (parseIntDigits c.2.1)
    | Option.none => Option.none
  | Option.none => Option.none

/-- Stage of parseDate for `Day Month Year` on the normalized string. -/
def stageDayMY (cs : List Char) : Option JSDate :=
  match execDayMY cs with
  | Option.some c =>
    match monthNameNum c.2.1 with
    | Option.some mn => tryDate (yearOfCapture c.2.2) mn (parseIntDigits c.1)
    | Option.none => Option.none
  | Option.none => Option.none

/-- Stage of parseDate for `Month Year` on the normalized string. -/
def stageMonthY (cs : List Char) : Option JSDate :=
  match execMonthY cs with
  | Option.some c =>
    match monthNameNum c.1 with
    | Option.some mn => tryDate (parseIntDigits c.2) mn 1
    | Option.none => Option.none
  | Option.none => Option.none

/-- Stage of parseDate for numeric `Month/Year`. -/
def stageNumMY (cs : List Char) : Option JSDate :=
  match execNumMY cs with
  | Option.some c => tryDate (parseIntDigits c.2) (parseIntDigits c.1 - 1) 1
  | Option.none => Option.none

/-- Function parseDate (findDates.ts lines 291-395): the numeric formats run on the
raw string, the month-name formats on `dateStr.trim().toLowerCase()`; each
failed stage falls through to the next. -/
def parseDate (dateStr : String) : Option JSDate :=
  let cs := dateStr.toList
  let normalized := (trimWs cs).map jsToLower
  (stageIso cs).orElse fun _ =>
  (stageCompact cs).orElse fun _ =>
  (stageDmyMdy cs).orElse fun _ =>
  (stageMonthDY normalized).orElse fun _ =>
  (stageDayMY normalized).orElse fun _ =>
  (stageMonthY normalized).orElse fun _ =>
  stageNumMY cs

/-- Function getDates (findDates.ts lines 72-92): all `DATE_RE` matches, parsed and
rendered as ISO day strings; matches failing `parseDate` are skipped. -/
def getDates (text : String) : List String :=
  if text == "" then []
  else
    let cs := text.toList
    let lower := (cs.map jsToLower).toArray
    (scanAll lower).filterMap fun se =>
      let raw := String.mk ((cs.drop se.1).take (se.2 - se.1))
      (parseDate raw).map (fun dt => jsDateIso dt.day)

/-! ## `classifyByContext` (findDates.ts lines 423-458) -/

/-- Class of colon or whitespace. -/
def mcolonWs : RexM := mcls (fun c => c == ':' || isWsCh c)

/-- ECMAScript `.` (not a line terminator). -/
def mdot : RexM := mcls (fun c => !(c == '\n') && !(c == '\r'))

/-- List DOS_PATTERNS in source order. -/
def dosPatterns : List RexM :=
  [ mseq (mstr "date") (mseq mwsPlus (mseq (mstr "of") (mseq mwsPlus (mstr "service"))))
  , mseq mwordB (mseq (mstr "dos") (mseq mwordB mcolonWs))
  , mseq (mstr "visit") (mseq mwsPlus (mstr "date"))
  , mseq (mstr "service") (mseq mwsPlus (mstr "date"))
  , mseq (mstr "encounter") (mseq mwsPlus (mstr "date"))
  , mseq (mstr "admission") (mseq mwsPlus (mstr "date"))
  , mseq (mstr "procedure") (mseq mwsPlus (mstr "date"))
  , mseq (mstr "exam") (mseq mwsPlus (mstr "date"))
  , mseq (mstr "treatment") (mseq mwsPlus (mstr "date")) ]

/-- List DOB_PATTERNS in source order. -/
def dobPatterns : List RexM :=
  [ mseq (mstr "date") (mseq mwsPlus (mseq (mstr "of") (mseq mwsPlus (mstr "birth"))))
  , mseq mwordB (mseq (mstr "dob") (mseq mwordB mcolonWs))
  , mseq (mstr "birth") (mseq (mrep isWsCh 0) (mstr "date"))
  , mseq mwordB (mseq (mstr "born") (mseq mwordB mcolonWs))
  , mseq (mstr "patient") (mseq (mrep (fun c => !(c == '\n') && !(c == '\r')) 0) (mstr "born")) ]

/-- List FAX_PATTERNS in source order. -/
def faxPatterns : List RexM :=
  [ mseq mwordB (mseq (mstr "fax") mwordB)
  , mstr "transmitted"
  , mseq mwordB (mseq (mstr "sent") (mseq mwordB mcolonWs))
  , mstr "received" ]

/-- Semantics of pattern.test(s) for a case-insensitive pattern: search for a match at
any start position of the lowercased string. -/
def testPat (m : RexM) (s : String) : Bool :=
  let t := (s.toList.map jsToLower).toArray
  (List.range (t.size + 1)).any fun i => (m t i Option.some).isSome

/-- Function classifyByContext (findDates.ts lines 423-458). -/
def classifyByContext (before after : String) : DateClassification × Rat :=
  let context := before ++ " " ++ after
  if dosPatterns.any (fun p => testPat p before) then
    (DateClassification.date_of_service, rat09)
  else if dobPatterns.any (fun p => testPat p before) then
    (DateClassification.dob, rat095)
  else if faxPatterns.any (fun p => testPat p context) then
    (DateClassification.fax, rat08)
  else if dosPatterns.any (fun p => testPat p after) then
    (DateClassification.date_of_service, rat07)
  else (DateClassification.unknown, (0 : Rat))

/-- Function getPosition (findDates.ts lines 463-468). -/
def getPosition (offset textLength : Nat) : PagePosition :=
  let ratio : Rat := (offset : Rat) / (textLength : Rat)
  if ratio < rat02 then PagePosition.top
  else if rat08 < ratio then PagePosition.bottom
  else PagePosition.middle

/-- Function getDatesWithContext (findDates.ts lines 474-511). -/
def getDatesWithContext (text : String) : List ExtractedDate :=
  if text == "" then []
  else
    let cs := text.toList
    let lower := (cs.map jsToLower).toArray
    (scanAll lower).filterMap fun se =>
      let off := se.1
      let len := se.2 - se.1
      let raw := String.mk ((cs.drop off).take len)
      let beforeStart := off - 50
      let before := String.mk (trimWs ((cs.drop beforeStart).take (off - beforeStart)))
      let afterEnd := Nat.min cs.length (off + len + 50)
      let after := String.mk (trimWs ((cs.drop (off + len)).take (afterEnd - (off + len))))
      match parseDate raw with
      | Option.none => Option.none
      | Option.some dt =>
        let cc := classifyByContext before after
        Option.some
          { raw := raw
            iso := jsDateIso dt.day
            context := ⟨before, after⟩
            position := getPosition off cs.length
            offset := off
            classification := cc.1
            confidence := cc.2 }

/-! ## Definitions used only by theorem statements -/

/-- The four fields of a page that `applyInheritance` must leave untouched. -/
def frameFields (p : PageResult) : Nat × String × List ExtractedDate × Option String :=
  (p.pageNumber, p.text, p.extractedDates, p.documentType)

/-- Membership of a date-of-service indicator phrase in a window (the
source's DOS pattern set). -/
def dosIndicator (s : String) : Bool := dosPatterns.any (fun p => testPat p s)

/-- Membership of a date-of-birth indicator phrase in a window. -/
def dobIndicator (s : String) : Bool := dobPatterns.any (fun p => testPat p s)

/-- Membership of a fax/transmission indicator phrase in a window. -/
def faxIndicator (s : String) : Bool := faxPatterns.any (fun p => testPat p s)

/-- Modelled from the spec (the five numbered rules of the
ContextClassifier, first match wins): date-of-service indicator in the
before-window gives 0.9; else date-of-birth indicator in the before-window
gives 0.95; else a fax indicator in before and after combined gives 0.8;
else a date-of-service indicator in the after-window gives 0.7; else
unknown at 0. -/
def classifySpecRules (before after : String) : DateClassification × Rat :=
  if dosIndicator before then (DateClassification.date_of_service, rat09)
  else if dobIndicator before then (DateClassification.dob, rat095)
  else if faxIndicator (before ++ " " ++ after) then (DateClassification.fax, rat08)
  else if dosIndicator after then (DateClassification.date_of_service, rat07)
  else (DateClassification.unknown, (0 : Rat))

/-- The strict page-number order used in sortedness hypotheses. -/
def pageNumLT (a b : PageResult) : Prop := a.pageNumber < b.pageNumber

/-- The non-strict page-number order used in sortedness hypotheses. -/
def pageNumLE (a b : PageResult) : Prop := a.pageNumber ≤ b.pageNumber

instance : DecidableRel pageNumLT := fun a b => Nat.decLt _ _

instance : DecidableRel pageNumLE := fun a b => Nat.decLe _ _

/-- Distinctness of page numbers across a page list. -/
def pageNumsDistinct (pages : List PageResult) : Prop :=
  List.Pairwise (fun a b => a.pageNumber ≠ b.pageNumber) pages

instance (pages : List PageResult) : Decidable (pageNumsDistinct pages) := by
  unfold pageNumsDistinct
  exact List.instDecidablePairwise pages

/-! ## Concrete inputs used by witnesses and counterexamples -/

/-- A high-confidence date-of-service candidate (spec example). -/
def wDosDate : ExtractedDate :=
  { raw := "01/15/2024", iso := "2024-01-15", context := ⟨"Date of Service:", "labs drawn"⟩
    position := PagePosition.top, offset := 0
    classification := DateClassification.date_of_service, confidence := rat09 }

/-- A date-of-birth candidate (spec example). -/
def wDobDate : ExtractedDate :=
  { raw := "03/04/1980", iso := "1980-03-04", context := ⟨"DOB:", ""⟩
    position := PagePosition.top, offset := 0
    classification := DateClassification.dob, confidence := rat095 }

def mkPlainPage (n : Nat) (dos : Option String) (src : DateSource) : PageResult :=
  { pageNumber := n, text := "", extractedDates := [], dateOfService := dos
    dateSource := src, inheritedFrom := Option.none, documentType := Option.none }

/-- Counterexample input for the inheritance-source claim: page 1 already
carries an inherited date, page 2 is undated. -/
def cexInhPages : List PageResult :=
  [mkPlainPage 1 (Option.some "2024-01-01") DateSource.inherited,
   mkPlainPage 2 Option.none DateSource.none]

/-- The spec's inheritance example: page 1 has a heuristic date, pages 2 and
3 are undated. -/
def wInhPages : List PageResult :=
  [mkPlainPage 1 (Option.some "2024-01-01") DateSource.heuristic,
   mkPlainPage 2 Option.none DateSource.none,
   mkPlainPage 3 Option.none DateSource.none]

/-- The second output page of the inheritance example: page 2 after
inheriting the date of page 1. -/
def wInhOut2 : PageResult :=
  { pageNumber := 2, text := "", extractedDates := []
    dateOfService := Option.some "2024-01-01"
    dateSource := DateSource.inherited, inheritedFrom := Option.some 1
    documentType := Option.none }

/-- The spec's clustering example: page 2 dated 2024-03-01 and page 1 dated
2024-01-05, presented out of order. -/
def wClusterPages : List PageResult :=
  [mkPlainPage 2 (Option.some "2024-03-01") DateSource.heuristic,
   mkPlainPage 1 (Option.some "2024-01-05") DateSource.heuristic]

def mkDupPage (i : String) (n : Nat) (h : Option String) : DupPage :=
  { id := i, pageNumber := n, textHash := h, simHash := Option.none }

/-- The spec's duplicate example: two pages with identical text, hence equal
text hashes. -/
def wDupPages : List DupPage :=
  [mkDupPage "p1" 1 (Option.some "hashA"), mkDupPage "p2" 2 (Option.some "hashA")]
/-- The page-number order of the database query feeding the duplicates
handler. -/
def dupPageLE (a b : DupPage) : Prop := a.pageNumber ≤ b.pageNumber

instance : DecidableRel dupPageLE := fun a b => Nat.decLe _ _

/-- A page's dateOfService, when present, is a canonical ISO day string
(the only shape the pipeline produces); under this condition the embedded
sort comparator agrees with the JavaScript one. -/
def canonicalDos (p : PageResult) : Bool :=
  match p.dateOfService with
  | Option.some s => (parseIsoDateOnly s).isSome
  | Option.none => true

/-- The clustering example extended with an undated page 3. -/
def wC6Pages : List PageResult :=
  wClusterPages ++ [mkPlainPage 3 Option.none DateSource.none]

/-- The cluster produced for 2024-03-01 on wC6Pages. -/
def wC6ClusterMar : PageCluster :=
  { id := "cluster-2024-03-01-2", dateOfService := "2024-03-01"
    pages := [2], primaryPage := 2, documentType := Option.none }

/-- The cluster produced for 2024-01-05 on wC6Pages. -/
def wC6ClusterJan : PageCluster :=
  { id := "cluster-2024-01-05-1", dateOfService := "2024-01-05"
    pages := [1], primaryPage := 1, documentType := Option.none }

/-- Adjacent characters of the whitespace-collapse output are never both
whitespace (proof-side invariant for the idempotence of normalizeText). -/
def noTwoWs (a b : Char) : Prop := ¬(isWsCh a = true ∧ isWsCh b = true)

/-- Proof-side invariant of the exact-duplicate grouping pass: a map entry
holds a nonempty group whose members come from the page set S, all carry
the entry's (truthy) hash, and whose first member has the least page
number. -/
def groupEntryOk (S : List DupPage) (e : String × List DupPage) : Prop :=
  e.2 ≠ [] ∧
  (∀ x ∈ e.2, x ∈ S ∧ jsTruthy x.textHash = true ∧ x.textHash.getD "" = e.1) ∧
  (∀ x ∈ e.2, ∀ c, e.2.head? = Option.some c → c.pageNumber ≤ x.pageNumber)

/-! # Theorems

## Helper lemmas for the idempotence of normalizeText -/

theorem toNat_ofNat_small (n : Nat) (h : n < 1000) : (Char.ofNat n).toNat = n := by
  have hv : n.isValidChar := Or.inl (by omega)
  simp only [Char.ofNat, hv, dif_pos, Char.ofNatAux, Char.toNat, UInt32.toNat]
  simp [BitVec.toNat_ofNatLt]

theorem jsToLower_idem (c : Char) : jsToLower (jsToLower c) = jsToLower c := by
  by_cases h : (65 ≤ c.toNat && c.toNat ≤ 90) = true
  · have hb : 65 ≤ c.toNat ∧ c.toNat ≤ 90 := by
      simpa [Bool.and_eq_true, decide_eq_true_eq] using h
    have ht : (Char.ofNat (c.toNat + 32)).toNat = c.toNat + 32 :=
      toNat_ofNat_small _ (by omega)
    have hlc : jsToLower c = Char.ofNat (c.toNat + 32) := by
      rw [jsToLower, if_pos h]
    rw [hlc, jsToLower, ht, if_neg]
    simp only [Bool.and_eq_true, decide_eq_true_eq, not_and]
    omega
  · have hlc : jsToLower c = c := by rw [jsToLower, if_neg h]
    rw [hlc]
    exact hlc

/-- Characters output by the whitespace collapse come from the input or are
the space character. -/
theorem mem_collapseWsGo (c : Char) (l : List Char) :
    ∀ b, c ∈ collapseWsGo b l → c ∈ l ∨ c = ' ' := by
  induction l with
  | nil => intro b h; simp [collapseWsGo] at h
  | cons a l ih =>
    intro b h
    by_cases ha : isWsCh a
    · cases b with
      | true =>
        simp only [collapseWsGo, ha, if_true] at h
        rcases ih true h with h | h
        · exact Or.inl (List.mem_cons_of_mem _ h)
        · exact Or.inr h
      | false =>
        simp only [collapseWsGo, ha, if_true, Bool.false_eq_true, if_false] at h
        rcases List.mem_cons.mp h with h | h
        · exact Or.inr h
        · rcases ih true h with h | h
          · exact Or.inl (List.mem_cons_of_mem _ h)
          · exact Or.inr h
    · simp only [collapseWsGo, ha, if_false] at h
      rcases List.mem_cons.mp h with h | h
      · exact Or.inl (by simp [h])
      · rcases ih false h with h | h
        · exact Or.inl (List.mem_cons_of_mem _ h)
        · exact Or.inr h

theorem mem_trimRightWs (c : Char) : ∀ l : List Char, c ∈ trimRightWs l → c ∈ l := by
  intro l
  induction l with
  | nil => simp [trimRightWs]
  | cons a l ih =>
    intro h
    rw [trimRightWs] at h
    rcases hr : trimRightWs l with _ | ⟨x, xs⟩ <;> rw [hr] at h
    · by_cases ha : isWsCh a
      · simp [ha] at h
      · simp [ha] at h
        simp [h]
    · rcases List.mem_cons.mp h with h | h
      · simp [h]
      · refine List.mem_cons_of_mem _ (ih ?_)
        rw [hr]
        exact h

theorem mem_trimLeftWs (c : Char) (l : List Char) (h : c ∈ trimLeftWs l) : c ∈ l :=
  (List.dropWhile_sublist (l := l) (p := isWsCh)).mem h

theorem mem_trimWs (c : Char) (l : List Char) (h : c ∈ trimWs l) : c ∈ l :=
  mem_trimLeftWs c l (mem_trimRightWs c (trimLeftWs l) h)

/-- Whitespace characters output by the collapse are exactly the space
character. -/
theorem wsOnlySpace_collapseWsGo (c : Char) (l : List Char) :
    ∀ b, c ∈ collapseWsGo b l → isWsCh c = true → c = ' ' := by
  induction l with
  | nil => intro b h; simp [collapseWsGo] at h
  | cons a l ih =>
    intro b h hw
    by_cases ha : isWsCh a
    · cases b with
      | true =>
        simp only [collapseWsGo, ha, if_true] at h
        exact ih true h hw
      | false =>
        simp only [collapseWsGo, ha, if_true, Bool.false_eq_true, if_false] at h
        rcases List.mem_cons.mp h with h | h
        · exact h
        · exact ih true h hw
    · simp only [collapseWsGo, ha, if_false] at h
      rcases List.mem_cons.mp h with h | h
      · rw [h] at hw
        exact absurd hw (by simpa using ha)
      · exact ih false h hw

/-- After a collapsed whitespace run the next output character is not
whitespace. -/
theorem head_collapseWsGo_true :
    ∀ (l : List Char) (c : Char), (collapseWsGo true l).head? = Option.some c →
      isWsCh c = false := by
  intro l
  induction l with
  | nil => intro c h; simp [collapseWsGo] at h
  | cons a l ih =>
    intro c h
    by_cases ha : isWsCh a
    · simp only [collapseWsGo, ha, if_true] at h
      exact ih c h
    · simp only [collapseWsGo, ha, if_false, List.head?_cons] at h
      cases h
      simpa using ha

theorem chain_collapseWsGo (l : List Char) :
    ∀ b, List.Chain' noTwoWs (collapseWsGo b l) := by
  induction l with
  | nil => intro b; simp [collapseWsGo]
  | cons a l ih =>
    intro b
    by_cases ha : isWsCh a
    · cases b with
      | true =>
        simp only [collapseWsGo, ha, if_true]
        exact ih true
      | false =>
        simp only [collapseWsGo, ha, if_true, Bool.false_eq_true, if_false]
        refine List.chain'_cons'.mpr ⟨?_, ih true⟩
        intro y hy hcon
        have := head_collapseWsGo_true l y hy
        rw [this] at hcon
        exact absurd hcon.2 (by simp)
    · simp only [collapseWsGo, ha, if_false]
      refine List.chain'_cons'.mpr ⟨?_, ih false⟩
      intro y hy hcon
      exact absurd hcon.1 (by simpa using ha)

/-- Collapsing is the identity on lists whose whitespace characters are
single spaces with no two adjacent. -/
theorem collapseWsGo_fixed (l : List Char) :
    ∀ b, (∀ c ∈ l, isWsCh c = true → c = ' ') →
      List.Chain' noTwoWs l →
      (b = true → ∀ c, l.head? = Option.some c → isWsCh c = false) →
      collapseWsGo b l = l := by
  induction l with
  | nil => intro b _ _ _; cases b <;> simp [collapseWsGo]
  | cons a l ih =>
    intro b honly hchain hhead
    by_cases ha : isWsCh a
    · cases b with
      | true => exact absurd ha (by simp [hhead rfl a rfl])
      | false =>
        simp only [collapseWsGo, ha, if_true, Bool.false_eq_true, if_false]
        have ha' : a = ' ' := honly a (by simp) ha
        rw [ih true
          (fun c hc hw => honly c (List.mem_cons_of_mem _ hc) hw)
          (List.Chain'.tail hchain)
          (fun _ c hc => by
            by_contra hcw
            exact (List.chain'_cons'.mp hchain).1 c hc ⟨ha, by simpa using hcw⟩)]
        rw [ha']
    · simp only [collapseWsGo, ha, Bool.false_eq_true, if_false]
      rw [ih false
        (fun c hc hw => honly c (List.mem_cons_of_mem _ hc) hw)
        (List.Chain'.tail hchain)
        (by intro h; cases h)]

theorem head_trimLeftWs (l : List Char) :
    ∀ c, (trimLeftWs l).head? = Option.some c → isWsCh c = false := by
  induction l with
  | nil => intro c h; simp [trimLeftWs] at h
  | cons a l ih =>
    intro c h
    by_cases ha : isWsCh a
    · rw [trimLeftWs, List.dropWhile_cons, if_pos ha] at h
      exact ih c h
    · rw [trimLeftWs, List.dropWhile_cons, if_neg ha, List.head?_cons] at h
      cases h
      simpa using ha

theorem trimLeftWs_fixed (l : List Char)
    (h : ∀ c, l.head? = Option.some c → isWsCh c = false) : trimLeftWs l = l := by
  cases l with
  | nil => rfl
  | cons a l =>
    have := h a rfl
    rw [trimLeftWs, List.dropWhile_cons, if_neg (by simp [this])]

theorem head_trimRightWs (l : List Char) :
    ∀ c, (trimRightWs l).head? = Option.some c → l.head? = Option.some c := by
  induction l with
  | nil => intro c h; simp [trimRightWs] at h
  | cons a l ih =>
    intro c h
    rw [trimRightWs] at h
    rcases hr : trimRightWs l with _ | ⟨x, xs⟩ <;> rw [hr] at h
    · by_cases ha : isWsCh a
      · simp [ha] at h
      · simp [ha] at h
        simp [h]
    · simp only [List.head?_cons, Option.some.injEq] at h
      subst h
      rfl

theorem getLast_trimRightWs (l : List Char) :
    ∀ c, (trimRightWs l).getLast? = Option.some c → isWsCh c = false := by
  induction l with
  | nil => intro c h; simp [trimRightWs] at h
  | cons a l ih =>
    intro c h
    rw [trimRightWs] at h
    rcases hr : trimRightWs l with _ | ⟨x, xs⟩ <;> rw [hr] at h
    · by_cases ha : isWsCh a
      · simp [ha] at h
      · simp [ha] at h
        cases h
        simpa using ha
    · rw [List.getLast?_cons_cons] at h
      exact ih c (by rw [hr]; exact h)

theorem trimRightWs_fixed (l : List Char)
    (h : ∀ c, l.getLast? = Option.some c → isWsCh c = false) : trimRightWs l = l := by
  induction l with
  | nil => rfl
  | cons a l ih =>
    cases l with
    | nil =>
      have := h a rfl
      rw [trimRightWs, trimRightWs]
      simp [this]
    | cons b m =>
      have h2 : trimRightWs (b :: m) = b :: m :=
        ih (fun c hc => h c (by rw [List.getLast?_cons_cons]; exact hc))
      rw [trimRightWs, h2]

theorem chain_trimLeftWs {R : Char → Char → Prop} (l : List Char)
    (h : List.Chain' R l) : List.Chain' R (trimLeftWs l) := by
  induction l with
  | nil => exact h
  | cons a l ih =>
    by_cases ha : isWsCh a
    · rw [trimLeftWs, List.dropWhile_cons, if_pos ha]
      exact ih (List.Chain'.tail h)
    · rw [trimLeftWs, List.dropWhile_cons, if_neg ha]
      exact h

theorem chain_trimRightWs {R : Char → Char → Prop} (l : List Char)
    (h : List.Chain' R l) : List.Chain' R (trimRightWs l) := by
  induction l with
  | nil => exact h
  | cons a l ih =>
    rw [trimRightWs]
    rcases hr : trimRightWs l with _ | ⟨x, xs⟩
    · by_cases ha : isWsCh a <;> simp [ha]
    · refine List.chain'_cons'.mpr ⟨?_, by rw [← hr]; exact ih (List.Chain'.tail h)⟩
      intro y hy
      cases hy
      exact (List.chain'_cons'.mp h).1 x (head_trimRightWs l x (by rw [hr]; rfl))

theorem trimWs_idem (l : List Char) : trimWs (trimWs l) = trimWs l := by
  have h1 : trimLeftWs (trimWs l) = trimWs l := by
    apply trimLeftWs_fixed
    intro c hc
    exact head_trimLeftWs l c (head_trimRightWs (trimLeftWs l) c hc)
  have h2 : trimRightWs (trimWs l) = trimWs l := by
    apply trimRightWs_fixed
    intro c hc
    exact getLast_trimRightWs (trimLeftWs l) c hc
  rw [trimWs, h1, h2]

theorem map_eq_self_of_fixed {f : Char → Char} (l : List Char)
    (h : ∀ c ∈ l, f c = c) : l.map f = l := by
  induction l with
  | nil => rfl
  | cons a l ih =>
    rw [List.map_cons, h a (by simp), ih (fun c hc => h c (List.mem_cons_of_mem _ hc))]

theorem normalizeChars_idem (l : List Char) :
    normalizeChars (normalizeChars l) = normalizeChars l := by
  have hfix : ∀ c ∈ normalizeChars l, jsToLower c = c ∧ keepWordOrWs c = true := by
    intro c hc
    have hcc : c ∈ collapseWs ((l.map jsToLower).filter keepWordOrWs) :=
      mem_trimWs c _ hc
    rcases mem_collapseWsGo c _ false hcc with hx | hsp
    · have hkeep := List.of_mem_filter hx
      rcases List.mem_map.mp (List.mem_of_mem_filter hx) with ⟨c0, _, hc0⟩
      exact ⟨by rw [← hc0]; exact jsToLower_idem c0, hkeep⟩
    · subst hsp
      exact ⟨by decide, by decide⟩
  have hmap : (normalizeChars l).map jsToLower = normalizeChars l :=
    map_eq_self_of_fixed _ (fun c hc => (hfix c hc).1)
  have hfilter : (normalizeChars l).filter keepWordOrWs = normalizeChars l :=
    List.filter_eq_self.mpr (fun c hc => (hfix c hc).2)
  have hwsonly : ∀ c ∈ normalizeChars l, isWsCh c = true → c = ' ' := by
    intro c hc hw
    exact wsOnlySpace_collapseWsGo c _ false (mem_trimWs c _ hc) hw
  have hchain : List.Chain' noTwoWs (normalizeChars l) := by
    apply chain_trimRightWs
    apply chain_trimLeftWs
    exact chain_collapseWsGo _ false
  have hcollapse : collapseWs (normalizeChars l) = normalizeChars l :=
    collapseWsGo_fixed _ false hwsonly hchain (by intro h; cases h)
  have htrim : trimWs (normalizeChars l) = normalizeChars l := trimWs_idem _
  calc normalizeChars (normalizeChars l)
      = trimWs (collapseWs (((normalizeChars l).map jsToLower).filter keepWordOrWs)) := rfl
    _ = trimWs (collapseWs (normalizeChars l)) := by rw [hmap, hfilter]
    _ = trimWs (normalizeChars l) := by rw [hcollapse]
    _ = normalizeChars l := htrim

/-- Claim C9: normalizeText is idempotent: for every string t,
normalizeText (normalizeText t) equals normalizeText t, where normalizeText
lowercases, strips all non-word characters, collapses whitespace runs to a
single space, and trims the ends. -/
theorem normalizeText_idempotent (t : String) :
    normalizeText (normalizeText t) = normalizeText t :=
  congrArg String.mk (normalizeChars_idem t.toList)

/-! ## Lemmas about applyInheritance (claims C2, C5, C10) -/

/-- Once a dated page is available, every page emitted afterwards carries a
truthy date with a non-none source. -/
theorem allOwn_applyInheritanceAux (ps : List PageResult) :
    ∀ lp, jsTruthy lp.dateOfService = true →
      ∀ q ∈ applyInheritanceAux (Option.some lp) ps, hasOwnDate q = true := by
  induction ps with
  | nil => intro lp _ q hq; simp [applyInheritanceAux] at hq
  | cons p ps ih =>
    intro lp hlp q hq
    by_cases hp : hasOwnDate p
    · simp only [applyInheritanceAux, hp, if_true] at hq
      rcases List.mem_cons.mp hq with h | h
      · rw [h]; exact hp
      · exact ih p (Bool.and_elim_left hp) q h
    · simp only [applyInheritanceAux, hp, if_false] at hq
      rcases List.mem_cons.mp hq with h | h
      · rw [h]
        simp only [hasOwnDate, inheritFromPage]
        rw [Bool.and_eq_true]
        exact ⟨hlp, by decide⟩
      · exact ih lp hlp q h

/-- The pass is the identity on lists all of whose pages already own a
date. -/
theorem applyInheritanceAux_fixed (ps : List PageResult) :
    ∀ last, (∀ p ∈ ps, hasOwnDate p = true) → applyInheritanceAux last ps = ps := by
  induction ps with
  | nil => intro last _; rfl
  | cons p ps ih =>
    intro last hall
    have hp : hasOwnDate p = true := hall p (by simp)
    simp only [applyInheritanceAux, hp, if_true]
    rw [ih (Option.some p) (fun r hr => hall r (List.mem_cons_of_mem _ hr))]

theorem applyInheritanceAux_idem (ps : List PageResult) :
    ∀ last, (∀ lp, last = Option.some lp → jsTruthy lp.dateOfService = true) →
      applyInheritanceAux last (applyInheritanceAux last ps) =
        applyInheritanceAux last ps := by
  induction ps with
  | nil => intro last _; rfl
  | cons p ps ih =>
    intro last hlast
    by_cases hp : hasOwnDate p
    · simp only [applyInheritanceAux, hp, if_true]
      rw [ih (Option.some p) (fun lp h => by cases h; exact Bool.and_elim_left hp)]
    · cases last with
      | none =>
        simp only [applyInheritanceAux, hp, Bool.false_eq_true, if_false]
        rw [ih Option.none (by intro lp h; cases h)]
      | some lp =>
        have hlp : jsTruthy lp.dateOfService = true := hlast lp rfl
        have hq0 : hasOwnDate (inheritFromPage lp p) = true := by
          simp only [hasOwnDate, inheritFromPage]
          rw [Bool.and_eq_true]
          exact ⟨hlp, by decide⟩
        simp only [applyInheritanceAux, hp, Bool.false_eq_true, if_false, hq0, if_true]
        rw [applyInheritanceAux_fixed _ (Option.some (inheritFromPage lp p))
          (fun r hr => allOwn_applyInheritanceAux ps lp hlp r hr)]

/-- Decomposition of the first-branch guard. -/
theorem hasOwnDate_spec (p : PageResult) (h : hasOwnDate p = true) :
    jsTruthy p.dateOfService = true ∧ p.dateSource ≠ DateSource.none := by
  rw [hasOwnDate, Bool.and_eq_true] at h
  refine ⟨h.1, fun hc => ?_⟩
  have h2 := h.2
  rw [hc] at h2
  simp at h2

/-- Claim C5: applyInheritance is idempotent on page lists sorted by
ascending page number (in fact on all page lists). -/
theorem applyInheritance_idem (pages : List PageResult)
    (hsorted : List.Sorted pageNumLE pages) :
    applyInheritance (applyInheritance pages) = applyInheritance pages :=
  applyInheritanceAux_idem pages Option.none (by intro lp h; cases h)

theorem applyInheritance_idem_witness :
    List.Sorted pageNumLE wInhPages ∧
    applyInheritance (applyInheritance wInhPages) = applyInheritance wInhPages :=
  ⟨by decide, applyInheritance_idem wInhPages (by decide)⟩

theorem applyInheritanceAux_frame (ps : List PageResult) :
    ∀ last, (applyInheritanceAux last ps).map frameFields = ps.map frameFields := by
  induction ps with
  | nil => intro last; rfl
  | cons p ps ih =>
    intro last
    by_cases hp : hasOwnDate p
    · simp only [applyInheritanceAux, hp, if_true, List.map_cons]
      rw [ih (Option.some p)]
    · cases last with
      | none =>
        simp only [applyInheritanceAux, hp, Bool.false_eq_true, if_false, List.map_cons]
        rw [ih Option.none]
      | some lp =>
        simp only [applyInheritanceAux, hp, Bool.false_eq_true, if_false, List.map_cons]
        rw [ih (Option.some lp)]
        rfl

/-- Claim C10: applyInheritance preserves length and order, and touches only
dateOfService, dateSource and inheritedFrom: pageNumber, text,
extractedDates and documentType are position-wise unchanged. -/
theorem applyInheritance_frame (pages : List PageResult) :
    (applyInheritance pages).length = pages.length ∧
    (applyInheritance pages).map frameFields = pages.map frameFields := by
  have h := applyInheritanceAux_frame pages Option.none
  exact ⟨by simpa using congrArg List.length h, h⟩

/-- Counterexample to claim C2 as stated: on input cexInhPages (page 1
already carries dateSource inherited, page 2 undated), the output's page 2
is inherited with inheritedFrom = 1, yet the input page numbered 1 does not
have a non-inherited own date: its dateSource is inherited. -/
theorem applyInheritance_inherited_src_counterexample :
    applyInheritance cexInhPages =
      [mkPlainPage 1 (Option.some "2024-01-01") DateSource.inherited, wInhOut2] ∧
    wInhOut2.dateSource = DateSource.inherited ∧
    wInhOut2.inheritedFrom = Option.some 1 ∧
    (cexInhPages.head?.map (fun p => (p.pageNumber, p.dateSource))) =
      Option.some (1, DateSource.inherited) := by
  refine ⟨by decide, by decide, by decide, by decide⟩

theorem applyInheritanceAux_inherited_src (ps : List PageResult) :
    ∀ last, (∀ p ∈ ps, p.dateSource ≠ DateSource.inherited) →
      List.Sorted pageNumLT ps →
      (∀ lp, last = Option.some lp →
        jsTruthy lp.dateOfService = true ∧ lp.dateSource ≠ DateSource.none ∧
        lp.dateSource ≠ DateSource.inherited ∧
        ∀ p ∈ ps, lp.pageNumber < p.pageNumber) →
      ∀ q ∈ applyInheritanceAux last ps, q.dateSource = DateSource.inherited →
        ∃ p, (last = Option.some p ∨ p ∈ ps) ∧
          q.inheritedFrom = Option.some p.pageNumber ∧
          p.pageNumber < q.pageNumber ∧ jsTruthy p.dateOfService = true ∧
          p.dateSource ≠ DateSource.none ∧ p.dateSource ≠ DateSource.inherited := by
  induction ps with
  | nil => intro last _ _ _ q hq; simp [applyInheritanceAux] at hq
  | cons p ps ih =>
    intro last hfresh hsort hstate q hq hqi
    by_cases hp : hasOwnDate p
    · simp only [applyInheritanceAux, hp, if_true] at hq
      rcases List.mem_cons.mp hq with h | h
      · rw [h] at hqi
        exact absurd hqi (hfresh p (by simp))
      · rcases ih (Option.some p)
          (fun r hr => hfresh r (List.mem_cons_of_mem _ hr))
          hsort.of_cons
          (fun lp hlp => by
            cases hlp
            exact ⟨(hasOwnDate_spec p hp).1, (hasOwnDate_spec p hp).2,
              hfresh p (by simp), (List.sorted_cons.mp hsort).1⟩)
          q h hqi with ⟨r, hr, rest⟩
        refine ⟨r, ?_, rest⟩
        rcases hr with hr | hr
        · cases hr
          exact Or.inr (by simp)
        · exact Or.inr (List.mem_cons_of_mem _ hr)
    · cases last with
      | none =>
        simp only [applyInheritanceAux, hp, Bool.false_eq_true, if_false] at hq
        rcases List.mem_cons.mp hq with h | h
        · rw [h] at hqi
          exact absurd hqi (hfresh p (by simp))
        · rcases ih Option.none
            (fun r hr => hfresh r (List.mem_cons_of_mem _ hr))
            hsort.of_cons
            (by intro lp hlp; cases hlp)
            q h hqi with ⟨r, hr, rest⟩
          refine ⟨r, ?_, rest⟩
          rcases hr with hr | hr
          · cases hr
          · exact Or.inr (List.mem_cons_of_mem _ hr)
      | some lp =>
        have hst := hstate lp rfl
        simp only [applyInheritanceAux, hp, Bool.false_eq_true, if_false] at hq
        rcases List.mem_cons.mp hq with h | h
        · refine ⟨lp, Or.inl rfl, ?_⟩
          rw [h]
          exact ⟨rfl, hst.2.2.2 p (by simp), hst.1, hst.2.1, hst.2.2.1⟩
        · rcases ih (Option.some lp)
            (fun r hr => hfresh r (List.mem_cons_of_mem _ hr))
            hsort.of_cons
            (fun lp' hlp' => by
              cases hlp'
              exact ⟨hst.1, hst.2.1, hst.2.2.1,
                fun r hr => hst.2.2.2 r (List.mem_cons_of_mem _ hr)⟩)
            q h hqi with ⟨r, hr, rest⟩
          refine ⟨r, ?_, rest⟩
          rcases hr with hr | hr
          · exact Or.inl hr
          · exact Or.inr (List.mem_cons_of_mem _ hr)

/-- Claim C2, amended: in the code a page is recorded as the new inheritance
source iff its dateOfService is truthy and its dateSource is not none (a
page whose dateSource is inherited qualifies).  Consequently, for every
input sorted by strictly ascending page number in which no page arrives
with dateSource = inherited, every output page with dateSource = inherited
has inheritedFrom set to an earlier page number whose own date is
non-inherited. -/
theorem applyInheritance_inherited_refs (pages : List PageResult)
    (hsorted : List.Sorted pageNumLT pages)
    (hfresh : ∀ p ∈ pages, p.dateSource ≠ DateSource.inherited) :
    ∀ q ∈ applyInheritance pages, q.dateSource = DateSource.inherited →
      ∃ p ∈ pages, q.inheritedFrom = Option.some p.pageNumber ∧
        p.pageNumber < q.pageNumber ∧ jsTruthy p.dateOfService = true ∧
        p.dateSource ≠ DateSource.none ∧ p.dateSource ≠ DateSource.inherited := by
  intro q hq hqi
  rcases applyInheritanceAux_inherited_src pages Option.none hfresh hsorted
    (by intro lp h; cases h) q hq hqi with ⟨p, hp, rest⟩
  rcases hp with hp | hp
  · cases hp
  · exact ⟨p, hp, rest⟩

theorem applyInheritance_inherited_refs_witness :
    ∃ p ∈ wInhPages, wInhOut2.inheritedFrom = Option.some p.pageNumber ∧
      p.pageNumber < wInhOut2.pageNumber ∧ jsTruthy p.dateOfService = true ∧
      p.dateSource ≠ DateSource.none ∧ p.dateSource ≠ DateSource.inherited :=
  applyInheritance_inherited_refs wInhPages (by decide) (by decide) wInhOut2
    (by decide) (by decide)

/-! ## Claims C3 and C4 -/

/-- Claim C3: if some extracted date is classified date_of_service with
confidence at least 0.8, selectDateOfService returns the iso date of the
first such element in text order with confident = true; otherwise, if
excluding all dob- and fax-classified elements leaves no candidate, it
returns none.  (The function is total, so it never raises.) -/
theorem selectDateOfService_spec (dates : List ExtractedDate) :
    (∀ d, dates.find? isHighConfDos = Option.some d →
      selectDateOfService dates = Option.some ⟨d.iso, true⟩) ∧
    (dates.filter isNotDobFax = [] → selectDateOfService dates = Option.none) := by
  constructor
  · intro d h
    cases dates with
    | nil => simp [List.find?] at h
    | cons a l =>
      simp only [selectDateOfService, List.length_cons]
      rw [if_neg (by simp)]
      rw [h]
  · intro hfil
    cases dates with
    | nil => rfl
    | cons a l =>
      have hfind : (a :: l).find? isHighConfDos = Option.none := by
        rw [List.find?_eq_none]
        intro x hx
        have hx2 : ¬ isNotDobFax x = true := List.filter_eq_nil_iff.mp hfil x hx
        simp only [isNotDobFax, Bool.and_eq_true, Bool.not_eq_true',
          beq_eq_false_iff_ne, ne_eq, not_and, not_not] at hx2
        intro hc
        simp only [isHighConfDos, Bool.and_eq_true, beq_iff_eq] at hc
        by_cases hdob : x.classification = DateClassification.dob
        · rw [hc.1] at hdob
          cases hdob
        · have := hx2 hdob
          rw [hc.1] at this
          cases this
      simp only [selectDateOfService, hfind, hfil]
      rw [if_neg (by simp)]
      simp

theorem selectDateOfService_spec_witness :
    selectDateOfService [wDosDate] = Option.some ⟨"2024-01-15", true⟩ ∧
    selectDateOfService [wDobDate] = Option.none :=
  ⟨(selectDateOfService_spec [wDosDate]).1 wDosDate (by decide),
   (selectDateOfService_spec [wDobDate]).2 (by decide)⟩

/-- Claim C4: classifyByContext applies its rules in the fixed
first-match-wins order with the stated confidences (the five rules of
classifySpecRules); in particular a before-window matching both a
date-of-service and a date-of-birth indicator is classified date_of_service
with confidence 0.9. -/
theorem classifyByContext_spec (before after : String) :
    classifyByContext before after = classifySpecRules before after ∧
    (dosIndicator before = true → dobIndicator before = true →
      classifyByContext before after =
        (DateClassification.date_of_service, rat09)) := by
  constructor
  · rfl
  · intro hdos _
    rw [classifyByContext]
    rw [if_pos]
    exact hdos

theorem classifyByContext_spec_witness :
    dosIndicator "date of birth: 01/02/1980  date of service" = true ∧
    dobIndicator "date of birth: 01/02/1980  date of service" = true ∧
    classifyByContext "date of birth: 01/02/1980  date of service" "" =
      (DateClassification.date_of_service, rat09) :=
  ⟨by decide, by decide,
   (classifyByContext_spec "date of birth: 01/02/1980  date of service" "").2
     (by decide) (by decide)⟩

/-! ## Claim C1 -/

/-- Claim C1 evidence: the date-shaped substring 2024-04-31 is matched, is
not a valid calendar date (April has 30 days), yet is not dropped:
JavaScript Date-constructor rollover turns it into May 1st, which appears
in the output, contradicting the stated failure semantics. -/
theorem getDates_invalid_day_rolls_over :
    getDates "2024-04-31" = ["2024-05-01"] ∧
    parseDate "2024-04-31" = Option.some ⟨19844⟩ ∧
    jsDateIso 19844 = "2024-05-01" := by
  refine ⟨by decide, by decide, by decide⟩

/-! ## Lemmas about buildClusters (claims C6 and C7) -/

theorem mem_upsertCluster (key : String) (pn : Nat) (dt : Option String) :
    ∀ (acc : List (String × ClusterData)) (e : String × ClusterData),
      e ∈ upsertCluster key pn dt acc →
      e ∈ acc ∨ (e.1 = key ∧
        (e.2.pages = [pn] ∨ ∃ d0, (key, d0) ∈ acc ∧ e.2.pages = d0.pages ++ [pn])) := by
  intro acc
  induction acc with
  | nil =>
    intro e he
    simp only [upsertCluster, List.mem_singleton] at he
    subst he
    exact Or.inr ⟨rfl, Or.inl rfl⟩
  | cons a rest ih =>
    rcases a with ⟨k, d⟩
    intro e he
    by_cases hk : k = key
    · simp only [upsertCluster, hk, if_true] at he
      rcases List.mem_cons.mp he with h | h
      · subst h
        refine Or.inr ⟨rfl, Or.inr ⟨d, ?_, rfl⟩⟩
        rw [← hk]
        exact List.mem_cons_self _ _
      · exact Or.inl (List.mem_cons_of_mem _ h)
    · simp only [upsertCluster, hk, if_false] at he
      rcases List.mem_cons.mp he with h | h
      · exact Or.inl (by simp [h])
      · rcases ih e h with h2 | ⟨h3, h4⟩
        · exact Or.inl (List.mem_cons_of_mem _ h2)
        · refine Or.inr ⟨h3, ?_⟩
          rcases h4 with h4 | ⟨d0, hd0, h5⟩
          · exact Or.inl h4
          · exact Or.inr ⟨d0, List.mem_cons_of_mem _ hd0, h5⟩

theorem keys_upsertCluster (key : String) (pn : Nat) (dt : Option String) :
    ∀ (acc : List (String × ClusterData)) (k' : String),
      k' ∈ (upsertCluster key pn dt acc).map Prod.fst →
      k' ∈ acc.map Prod.fst ∨ k' = key := by
  intro acc
  induction acc with
  | nil =>
    intro k' h
    simp only [upsertCluster, List.map_cons, List.map_nil, List.mem_singleton] at h
    exact Or.inr h
  | cons a rest ih =>
    rcases a with ⟨k, d⟩
    intro k' h
    by_cases hk : k = key
    · simp only [upsertCluster, hk, if_true, List.map_cons, List.mem_cons] at h
      rcases h with h | h
      · exact Or.inr h
      · exact Or.inl (by simp [h])
    · simp only [upsertCluster, hk, if_false, List.map_cons, List.mem_cons] at h
      rcases h with h | h
      · exact Or.inl (by simp [h])
      · rcases ih k' h with h2 | h2
        · exact Or.inl (by simp [h2])
        · exact Or.inr h2

theorem nodup_keys_upsertCluster (key : String) (pn : Nat) (dt : Option String) :
    ∀ (acc : List (String × ClusterData)), (acc.map Prod.fst).Nodup →
      ((upsertCluster key pn dt acc).map Prod.fst).Nodup := by
  intro acc
  induction acc with
  | nil => intro _; simp [upsertCluster]
  | cons a rest ih =>
    rcases a with ⟨k, d⟩
    intro hnd
    simp only [List.map_cons, List.nodup_cons] at hnd
    by_cases hk : k = key
    · simp only [upsertCluster, hk, if_true, List.map_cons]
      exact List.nodup_cons.mpr ⟨hk ▸ hnd.1, hnd.2⟩
    · simp only [upsertCluster, hk, if_false, List.map_cons]
      refine List.nodup_cons.mpr ⟨?_, ih hnd.2⟩
      intro hmem
      rcases keys_upsertCluster key pn dt rest k hmem with h | h
      · exact hnd.1 h
      · exact hk h

theorem nodup_keys_clusterFold :
    ∀ (ps : List PageResult) (acc : List (String × ClusterData)),
      (acc.map Prod.fst).Nodup → ((clusterFold acc ps).map Prod.fst).Nodup := by
  intro ps
  induction ps with
  | nil => intro acc h; exact h
  | cons p ps ih =>
    intro acc h
    by_cases hp : jsTruthy p.dateOfService
    · simp only [clusterFold, hp, if_true]
      exact ih _ (nodup_keys_upsertCluster _ _ _ acc h)
    · simp only [clusterFold, hp, Bool.false_eq_true, if_false]
      exact ih _ h

/-- Every page number inside a cluster entry comes from a truthy-dated input
page carrying that entry's key (or was already in the accumulator). -/
theorem pages_mem_clusterFold :
    ∀ (ps : List PageResult) (acc : List (String × ClusterData))
      (e : String × ClusterData), e ∈ clusterFold acc ps → ∀ n ∈ e.2.pages,
      (∃ p ∈ ps, jsTruthy p.dateOfService = true ∧
        p.dateOfService.getD "" = e.1 ∧ p.pageNumber = n) ∨
      (∃ d0, (e.1, d0) ∈ acc ∧ n ∈ d0.pages) := by
  intro ps
  induction ps with
  | nil =>
    intro acc e he n hn
    exact Or.inr ⟨e.2, he, hn⟩
  | cons p ps ih =>
    intro acc e he n hn
    by_cases hp : jsTruthy p.dateOfService
    · simp only [clusterFold, hp, if_true] at he
      rcases ih _ e he n hn with h | ⟨d0, hd0, hnd0⟩
      · rcases h with ⟨r, hr, h1, h2, h3⟩
        exact Or.inl ⟨r, List.mem_cons_of_mem _ hr, h1, h2, h3⟩
      · rcases mem_upsertCluster _ _ _ acc (e.1, d0) hd0 with h | ⟨hk, hcase⟩
        · exact Or.inr ⟨d0, h, hnd0⟩
        · simp only at hk
          rcases hcase with h4 | ⟨d1, hd1, h5⟩
          · simp only at h4
            rw [h4] at hnd0
            simp only [List.mem_singleton] at hnd0
            exact Or.inl ⟨p, by simp, hp, hk.symm, hnd0.symm⟩
          · simp only at h5
            rw [h5] at hnd0
            rcases List.mem_append.mp hnd0 with h6 | h6
            · refine Or.inr ⟨d1, ?_, h6⟩
              rw [hk]
              exact hd1
            · simp only [List.mem_singleton] at h6
              exact Or.inl ⟨p, by simp, hp, hk.symm, h6.symm⟩
    · simp only [clusterFold, hp, Bool.false_eq_true, if_false] at he
      rcases ih _ e he n hn with h | h
      · rcases h with ⟨r, hr, hrest⟩
        exact Or.inl ⟨r, List.mem_cons_of_mem _ hr, hrest⟩
      · exact Or.inr h

/-- Every key of the cluster map is the date string of some truthy input
page (or came from the accumulator). -/
theorem keys_clusterFold_from :
    ∀ (ps : List PageResult) (acc : List (String × ClusterData))
      (e : String × ClusterData), e ∈ clusterFold acc ps →
      e ∈ acc ∨ ∃ p ∈ ps, jsTruthy p.dateOfService = true ∧
        p.dateOfService.getD "" = e.1 := by
  intro ps
  induction ps with
  | nil => intro acc e he; exact Or.inl he
  | cons p ps ih =>
    intro acc e he
    by_cases hp : jsTruthy p.dateOfService
    · simp only [clusterFold, hp, if_true] at he
      rcases ih _ e he with h | ⟨r, hr, h1, h2⟩
      · rcases mem_upsertCluster _ _ _ acc e h with h2 | ⟨h3, _⟩
        · exact Or.inl h2
        · exact Or.inr ⟨p, by simp, hp, h3.symm⟩
      · exact Or.inr ⟨r, List.mem_cons_of_mem _ hr, h1, h2⟩
    · simp only [clusterFold, hp, Bool.false_eq_true, if_false] at he
      rcases ih _ e he with h | ⟨r, hr, h1, h2⟩
      · exact Or.inl h
      · exact Or.inr ⟨r, List.mem_cons_of_mem _ hr, h1, h2⟩

theorem eq_of_pageNumber_eq {pages : List PageResult} (hdist : pageNumsDistinct pages)
    {p q : PageResult} (hp : p ∈ pages) (hq : q ∈ pages)
    (heq : p.pageNumber = q.pageNumber) : p = q := by
  by_contra hne
  have hsym : Symmetric (fun a b : PageResult => a.pageNumber ≠ b.pageNumber) :=
    fun _ _ h e => h e.symm
  exact List.Pairwise.forall hsym hdist hp hq hne heq

/-- Membership in buildClusters through the sort and the entry map. -/
theorem mem_buildClusters (pages : List PageResult) (c : PageCluster) :
    c ∈ buildClusters pages ↔
      ∃ e ∈ clusterFold [] pages, clusterOfEntry e = c := by
  rw [buildClusters]
  rw [(List.perm_insertionSort clusterLE _).mem_iff]
  simp [List.mem_map]

/-- Claim C6: for every post-inheritance page list with pairwise-distinct
page numbers, the clusters of buildClusters are pairwise disjoint over page
numbers, and a page with a null (falsy) dateOfService never appears in any
cluster - it appears in undatedPages. -/
theorem buildClusters_disjoint (pages : List PageResult)
    (hdist : pageNumsDistinct pages) :
    (∀ c1 ∈ buildClusters pages, ∀ c2 ∈ buildClusters pages, c1 ≠ c2 →
      ∀ n ∈ c1.pages, n ∉ c2.pages) ∧
    (∀ p ∈ pages, jsTruthy p.dateOfService = false →
      (∀ c ∈ buildClusters pages, p.pageNumber ∉ c.pages) ∧
      p.pageNumber ∈ undatedPages pages) := by
  have hnodup : ((clusterFold [] pages).map Prod.fst).Nodup :=
    nodup_keys_clusterFold pages [] (by simp)
  constructor
  · intro c1 hc1 c2 hc2 hne n hn1 hn2
    rcases (mem_buildClusters pages c1).mp hc1 with ⟨⟨k1, d1⟩, he1, hce1⟩
    rcases (mem_buildClusters pages c2).mp hc2 with ⟨⟨k2, d2⟩, he2, hce2⟩
    have hp1 : n ∈ d1.pages := by rw [← hce1] at hn1; exact hn1
    have hp2 : n ∈ d2.pages := by rw [← hce2] at hn2; exact hn2
    rcases pages_mem_clusterFold pages [] (k1, d1) he1 n hp1 with
      ⟨r1, hr1, ht1, hk1, hn1'⟩ | ⟨d0, hd0, _⟩
    · rcases pages_mem_clusterFold pages [] (k2, d2) he2 n hp2 with
        ⟨r2, hr2, ht2, hk2, hn2'⟩ | ⟨d0, hd0, _⟩
      · have hr12 : r1 = r2 := eq_of_pageNumber_eq hdist hr1 hr2 (by rw [hn1', hn2'])
        have hkeq : k1 = k2 := by
          have h1 : r1.dateOfService.getD "" = k1 := hk1
          have h2 : r2.dateOfService.getD "" = k2 := hk2
          rw [← h1, ← h2, hr12]
        have heq : ((k1, d1) : String × ClusterData) = (k2, d2) :=
          List.inj_on_of_nodup_map hnodup he1 he2 hkeq
        exact hne (by rw [← hce1, ← hce2, heq])
      · simp at hd0
    · simp at hd0
  · intro p hp hnull
    constructor
    · intro c hc hmem
      rcases (mem_buildClusters pages c).mp hc with ⟨⟨k, d⟩, he, hce⟩
      have hm : p.pageNumber ∈ d.pages := by rw [← hce] at hmem; exact hmem
      rcases pages_mem_clusterFold pages [] (k, d) he _ hm with
        ⟨r, hr, ht, _, hnum⟩ | ⟨d0, hd0, _⟩
      · have : r = p := eq_of_pageNumber_eq hdist hr hp hnum
        rw [this, hnull] at ht
        cases ht
      · simp at hd0
    · refine List.mem_map.mpr ⟨p, List.mem_filter.mpr ⟨hp, ?_⟩, rfl⟩
      simp [hnull]

theorem buildClusters_disjoint_witness :
    pageNumsDistinct wC6Pages ∧
    (1 : Nat) ∉ wC6ClusterMar.pages ∧
    (3 : Nat) ∉ wC6ClusterJan.pages ∧
    (3 : Nat) ∈ undatedPages wC6Pages :=
  ⟨by decide,
   (buildClusters_disjoint wC6Pages (by decide)).1 wC6ClusterJan (by decide)
     wC6ClusterMar (by decide) (by decide) 1 (by decide),
   ((buildClusters_disjoint wC6Pages (by decide)).2
     (mkPlainPage 3 Option.none DateSource.none) (by decide) (by decide)).1
     wC6ClusterJan (by decide),
   ((buildClusters_disjoint wC6Pages (by decide)).2
     (mkPlainPage 3 Option.none DateSource.none) (by decide) (by decide)).2⟩

/-- Claim C7: for every input page list whose dateOfService strings are
canonical ISO day strings (the only shape the pipeline stores), the cluster
sequence of buildClusters is sorted ascending by the calendar time of
dateOfService, and each cluster's date parses as a calendar day. -/
theorem buildClusters_sorted (pages : List PageResult)
    (hcanon : ∀ p ∈ pages, canonicalDos p = true) :
    List.Sorted clusterLE (buildClusters pages) ∧
    ∀ c ∈ buildClusters pages, (parseIsoDateOnly c.dateOfService).isSome = true := by
  constructor
  · exact List.sorted_insertionSort clusterLE _
  · intro c hc
    rcases (mem_buildClusters pages c).mp hc with ⟨⟨k, d⟩, he, hce⟩
    rcases keys_clusterFold_from pages [] (k, d) he with h | ⟨p, hp, ht, hk⟩
    · simp at h
    · have hs : c.dateOfService = k := by rw [← hce]; rfl
      have hk2 : p.dateOfService.getD "" = k := hk
      rw [hs, ← hk2]
      rcases hd : p.dateOfService with _ | s
      · rw [hd] at ht
        simp [jsTruthy] at ht
      · have hcp := hcanon p hp
        rw [canonicalDos, hd] at hcp
        simpa [hd] using hcp

theorem buildClusters_sorted_witness :
    List.Sorted clusterLE (buildClusters wClusterPages) ∧
    (buildClusters wClusterPages).map (fun c => c.dateOfService) =
      ["2024-01-05", "2024-03-01"] :=
  ⟨(buildClusters_sorted wClusterPages (by decide)).1, by decide⟩

/-! ## Lemmas about the exact-duplicate pass (claim C8) -/

theorem mem_upsertHashGroup (key : String) (p : DupPage) :
    ∀ (acc : List (String × List DupPage)) (e : String × List DupPage),
      e ∈ upsertHashGroup key p acc →
      e ∈ acc ∨ (e.1 = key ∧
        (e.2 = [p] ∨ ∃ g0, (key, g0) ∈ acc ∧ e.2 = g0 ++ [p])) := by
  intro acc
  induction acc with
  | nil =>
    intro e he
    simp only [upsertHashGroup, List.mem_singleton] at he
    subst he
    exact Or.inr ⟨rfl, Or.inl rfl⟩
  | cons a rest ih =>
    rcases a with ⟨k, g⟩
    intro e he
    by_cases hk : k = key
    · simp only [upsertHashGroup, hk, if_true] at he
      rcases List.mem_cons.mp he with h | h
      · subst h
        refine Or.inr ⟨rfl, Or.inr ⟨g, ?_, rfl⟩⟩
        rw [← hk]
        exact List.mem_cons_self _ _
      · exact Or.inl (List.mem_cons_of_mem _ h)
    · simp only [upsertHashGroup, hk, if_false] at he
      rcases List.mem_cons.mp he with h | h
      · exact Or.inl (by simp [h])
      · rcases ih e h with h2 | ⟨h3, h4⟩
        · exact Or.inl (List.mem_cons_of_mem _ h2)
        · refine Or.inr ⟨h3, ?_⟩
          rcases h4 with h4 | ⟨g0, hg0, h5⟩
          · exact Or.inl h4
          · exact Or.inr ⟨g0, List.mem_cons_of_mem _ hg0, h5⟩

theorem keys_upsertHashGroup (key : String) (p : DupPage) :
    ∀ (acc : List (String × List DupPage)) (k' : String),
      k' ∈ (upsertHashGroup key p acc).map Prod.fst →
      k' ∈ acc.map Prod.fst ∨ k' = key := by
  intro acc
  induction acc with
  | nil =>
    intro k' h
    simp only [upsertHashGroup, List.map_cons, List.map_nil, List.mem_singleton] at h
    exact Or.inr h
  | cons a rest ih =>
    rcases a with ⟨k, g⟩
    intro k' h
    by_cases hk : k = key
    · simp only [upsertHashGroup, hk, if_true, List.map_cons, List.mem_cons] at h
      rcases h with h | h
      · exact Or.inr h
      · exact Or.inl (by simp [h])
    · simp only [upsertHashGroup, hk, if_false, List.map_cons, List.mem_cons] at h
      rcases h with h | h
      · exact Or.inl (by simp [h])
      · rcases ih k' h with h2 | h2
        · exact Or.inl (by simp [h2])
        · exact Or.inr h2

theorem nodup_keys_upsertHashGroup (key : String) (p : DupPage) :
    ∀ (acc : List (String × List DupPage)), (acc.map Prod.fst).Nodup →
      ((upsertHashGroup key p acc).map Prod.fst).Nodup := by
  intro acc
  induction acc with
  | nil => intro _; simp [upsertHashGroup]
  | cons a rest ih =>
    rcases a with ⟨k, g⟩
    intro hnd
    simp only [List.map_cons, List.nodup_cons] at hnd
    by_cases hk : k = key
    · simp only [upsertHashGroup, hk, if_true, List.map_cons]
      exact List.nodup_cons.mpr ⟨hk ▸ hnd.1, hnd.2⟩
    · simp only [upsertHashGroup, hk, if_false, List.map_cons]
      refine List.nodup_cons.mpr ⟨?_, ih hnd.2⟩
      intro hmem
      rcases keys_upsertHashGroup key p rest k hmem with h | h
      · exact hnd.1 h
      · exact hk h

theorem nodup_keys_hashGroupFold :
    ∀ (ps : List DupPage) (acc : List (String × List DupPage)),
      (acc.map Prod.fst).Nodup → ((hashGroupFold acc ps).map Prod.fst).Nodup := by
  intro ps
  induction ps with
  | nil => intro acc h; exact h
  | cons p ps ih =>
    intro acc h
    by_cases hp : jsTruthy p.textHash
    · simp only [hashGroupFold, hp, if_true]
      exact ih _ (nodup_keys_upsertHashGroup _ _ acc h)
    · simp only [hashGroupFold, hp, Bool.false_eq_true, if_false]
      exact ih _ h

/-- Invariant of the exact-grouping fold over a page-number-sorted input. -/
theorem hashGroupFold_invariant (S : List DupPage) :
    ∀ (ps : List DupPage) (acc : List (String × List DupPage)),
      List.Sorted dupPageLE ps →
      (∀ x ∈ ps, x ∈ S) →
      (∀ e ∈ acc, groupEntryOk S e ∧
        ∀ x ∈ e.2, ∀ y ∈ ps, x.pageNumber ≤ y.pageNumber) →
      ∀ e ∈ hashGroupFold acc ps, groupEntryOk S e := by
  intro ps
  induction ps with
  | nil =>
    intro acc _ _ hacc e he
    exact (hacc e he).1
  | cons p ps ih =>
    intro acc hsort hsub hacc e he
    by_cases hp : jsTruthy p.textHash
    · simp only [hashGroupFold, hp, if_true] at he
      refine ih _ hsort.of_cons (fun x hx => hsub x (List.mem_cons_of_mem _ hx)) ?_ e he
      intro e2 he2
      rcases mem_upsertHashGroup _ _ acc e2 he2 with h | ⟨hk, hcase⟩
      · rcases hacc e2 h with ⟨hok, hbound⟩
        exact ⟨hok, fun x hx y hy => hbound x hx y (List.mem_cons_of_mem _ hy)⟩
      · rcases e2 with ⟨k2, g2⟩
        simp only at hk
        subst hk
        rcases hcase with hcase | ⟨g0, hg0, hcase⟩
        · simp only at hcase
          subst hcase
          refine ⟨⟨by simp, ?_, ?_⟩, ?_⟩
          · intro x hx
            simp only [List.mem_singleton] at hx
            subst hx
            exact ⟨hsub x (by simp), hp, rfl⟩
          · intro x hx c hc
            simp only [List.mem_singleton] at hx
            simp only [List.head?_cons, Option.some.injEq] at hc
            subst hx
            subst hc
            exact Nat.le_refl _
          · intro x hx y hy
            simp only [List.mem_singleton] at hx
            subst hx
            exact (List.sorted_cons.mp hsort).1 y hy
        · simp only at hcase
          subst hcase
          rcases hacc (p.textHash.getD "", g0) hg0 with ⟨⟨hne0, hmem0, hhead0⟩, hbound0⟩
          rcases hg0' : g0 with _ | ⟨c0, g0'⟩
          · exact absurd hg0' hne0
          · subst hg0'
            refine ⟨⟨by simp, ?_, ?_⟩, ?_⟩
            · intro x hx
              rcases List.mem_append.mp hx with h | h
              · exact hmem0 x h
              · simp only [List.mem_singleton] at h
                subst h
                exact ⟨hsub x (by simp), hp, rfl⟩
            · intro x hx c hc
              simp only [List.cons_append, List.head?_cons, Option.some.injEq] at hc
              subst hc
              rcases List.mem_append.mp hx with h | h
              · exact hhead0 x h c0 rfl
              · simp only [List.mem_singleton] at h
                subst h
                exact hbound0 c0 (by simp) x (by simp)
            · intro x hx y hy
              rcases List.mem_append.mp hx with h | h
              · exact hbound0 x h y (List.mem_cons_of_mem _ hy)
              · simp only [List.mem_singleton] at h
                subst h
                exact (List.sorted_cons.mp hsort).1 y hy
    · simp only [hashGroupFold, hp, Bool.false_eq_true, if_false] at he
      refine ih _ hsort.of_cons (fun x hx => hsub x (List.mem_cons_of_mem _ hx)) ?_ e he
      intro e2 he2
      rcases hacc e2 he2 with ⟨hok, hbound⟩
      exact ⟨hok, fun x hx y hy => hbound x hx y (List.mem_cons_of_mem _ hy)⟩

theorem upsertHashGroup_self (key : String) (p : DupPage) :
    ∀ (acc : List (String × List DupPage)),
      ∃ g, (key, g) ∈ upsertHashGroup key p acc ∧ p ∈ g := by
  intro acc
  induction acc with
  | nil => exact ⟨[p], by simp [upsertHashGroup], by simp⟩
  | cons a rest ih =>
    rcases a with ⟨k, g⟩
    by_cases hk : k = key
    · refine ⟨g ++ [p], ?_, by simp⟩
      simp only [upsertHashGroup, hk, if_true]
      exact List.mem_cons_self _ _
    · rcases ih with ⟨g2, hg2, hpg2⟩
      refine ⟨g2, ?_, hpg2⟩
      simp only [upsertHashGroup, hk, if_false]
      exact List.mem_cons_of_mem _ hg2

theorem upsertHashGroup_grow (key : String) (p : DupPage) :
    ∀ (acc : List (String × List DupPage)) (k : String) (g : List DupPage),
      (k, g) ∈ acc →
      ∃ g2, (k, g2) ∈ upsertHashGroup key p acc ∧ ∀ x ∈ g, x ∈ g2 := by
  intro acc
  induction acc with
  | nil => intro k g h; simp at h
  | cons a rest ih =>
    rcases a with ⟨k0, g0⟩
    intro k g h
    by_cases hk : k0 = key
    · rcases List.mem_cons.mp h with h | h
      · rcases Prod.mk.injEq .. ▸ h with ⟨h1, h2⟩
        subst h1
        subst h2
        refine ⟨g ++ [p], ?_, fun x hx => List.mem_append.mpr (Or.inl hx)⟩
        simp only [upsertHashGroup, hk, if_true]
        exact List.mem_cons_self _ _
      · refine ⟨g, ?_, fun x hx => hx⟩
        simp only [upsertHashGroup, hk, if_true]
        exact List.mem_cons_of_mem _ h
    · rcases List.mem_cons.mp h with h | h
      · refine ⟨g, ?_, fun x hx => hx⟩
        simp only [upsertHashGroup, hk, if_false]
        rw [h]
        exact List.mem_cons_self _ _
      · rcases ih k g h with ⟨g2, hg2, hsub⟩
        refine ⟨g2, ?_, hsub⟩
        simp only [upsertHashGroup, hk, if_false]
        exact List.mem_cons_of_mem _ hg2

theorem hashGroupFold_grow :
    ∀ (ps : List DupPage) (acc : List (String × List DupPage))
      (k : String) (g : List DupPage), (k, g) ∈ acc →
      ∃ g2, (k, g2) ∈ hashGroupFold acc ps ∧ ∀ x ∈ g, x ∈ g2 := by
  intro ps
  induction ps with
  | nil => intro acc k g h; exact ⟨g, h, fun x hx => hx⟩
  | cons p ps ih =>
    intro acc k g h
    by_cases hp : jsTruthy p.textHash
    · simp only [hashGroupFold, hp, if_true]
      rcases upsertHashGroup_grow (p.textHash.getD "") p acc k g h with ⟨g1, hg1, hs1⟩
      rcases ih _ k g1 hg1 with ⟨g2, hg2, hs2⟩
      exact ⟨g2, hg2, fun x hx => hs2 x (hs1 x hx)⟩
    · simp only [hashGroupFold, hp, Bool.false_eq_true, if_false]
      exact ih _ k g h

/-- Every truthy-hashed input page ends up in the entry of its hash. -/
theorem hashGroupFold_complete :
    ∀ (ps : List DupPage) (acc : List (String × List DupPage)) (p : DupPage),
      p ∈ ps → jsTruthy p.textHash = true →
      ∃ g, (p.textHash.getD "", g) ∈ hashGroupFold acc ps ∧ p ∈ g := by
  intro ps
  induction ps with
  | nil => intro acc p h; simp at h
  | cons q ps ih =>
    intro acc p hmem hp
    rcases List.mem_cons.mp hmem with h | h
    · subst h
      simp only [hashGroupFold, hp, if_true]
      rcases upsertHashGroup_self (p.textHash.getD "") p acc with ⟨g, hg, hpg⟩
      rcases hashGroupFold_grow ps _ _ g hg with ⟨g2, hg2, hs⟩
      exact ⟨g2, hg2, hs p hpg⟩
    · by_cases hq : jsTruthy q.textHash
      · simp only [hashGroupFold, hq, if_true]
        exact ih _ p h hp
      · simp only [hashGroupFold, hq, Bool.false_eq_true, if_false]
        exact ih _ p h hp

theorem one_lt_length_of_two_mem {α : Type} {x y : α} :
    ∀ {l : List α}, x ∈ l → y ∈ l → x ≠ y → 1 < l.length := by
  intro l hx hy hne
  cases l with
  | nil => simp at hx
  | cons a t =>
    cases t with
    | nil =>
      simp only [List.mem_singleton] at hx hy
      exact absurd (hx.trans hy.symm) hne
    | cons b t2 => simp [Nat.lt_of_sub_eq_succ]

/-- Claim C8: the exact pass partitions pages by equal textHash; every
partition with at least two members becomes one exact-duplicate group whose
primary is its lowest-page-number member and whose members all report
similarity exactly 1.0; two distinct pages with the same (truthy) hash land
in one common group. -/
theorem exactDuplicates_spec (pages : List DupPage)
    (hsorted : List.Sorted dupPageLE pages) :
    (∀ g ∈ exactDuplicates pages,
      2 ≤ g.pages.length ∧
      (∀ m ∈ g.pages, m.similarity = 1) ∧
      (∃ m ∈ g.pages, m.id = g.primaryPageId ∧ m.pageNumber = g.primaryPageNumber) ∧
      (∀ m ∈ g.pages, g.primaryPageNumber ≤ m.pageNumber) ∧
      (∃ h, ∀ m ∈ g.pages, ∃ p ∈ pages, p.id = m.id ∧ p.pageNumber = m.pageNumber ∧
        jsTruthy p.textHash = true ∧ p.textHash.getD "" = h)) ∧
    (∀ p ∈ pages, ∀ q ∈ pages, p ≠ q → jsTruthy p.textHash = true →
      p.textHash = q.textHash →
      ∃ g ∈ exactDuplicates pages,
        (∃ m ∈ g.pages, m.id = p.id ∧ m.pageNumber = p.pageNumber) ∧
        (∃ m ∈ g.pages, m.id = q.id ∧ m.pageNumber = q.pageNumber)) := by
  have hok : ∀ e ∈ hashGroupFold [] pages, groupEntryOk pages e :=
    hashGroupFold_invariant pages pages [] hsorted (fun x hx => hx) (by simp)
  constructor
  · intro g hg
    rcases List.mem_map.mp hg with ⟨e, hef, hge⟩
    have hefold : e ∈ hashGroupFold [] pages := (List.mem_filter.mp hef).1
    have hlen : 1 < e.2.length := by
      have h2 := (List.mem_filter.mp hef).2
      simpa using h2
    rcases hok e hefold with ⟨hne, hmem, hhead⟩
    rcases e with ⟨k, gr⟩
    simp only at hne hmem hhead hlen
    rcases hgr : gr with _ | ⟨c0, gr'⟩
    · exact absurd hgr hne
    subst hgr
    subst hge
    refine ⟨?_, ?_, ?_, ?_, ?_⟩
    · simp only [exactGroupOfEntry, List.length_map]
      omega
    · intro m hm
      rcases List.mem_map.mp hm with ⟨x, _, hx⟩
      rw [← hx]
    · refine ⟨⟨c0.id, c0.pageNumber, 1⟩, ?_, rfl, rfl⟩
      simp [exactGroupOfEntry]
    · intro m hm
      rcases List.mem_map.mp hm with ⟨x, hxm, hx⟩
      have hle := hhead x hxm c0 rfl
      rw [← hx]
      exact hle
    · refine ⟨k, ?_⟩
      intro m hm
      rcases List.mem_map.mp hm with ⟨x, hxm, hx⟩
      rcases hmem x hxm with ⟨hxp, hxt, hxk⟩
      exact ⟨x, hxp, by rw [← hx], by rw [← hx], hxt, hxk⟩
  · intro p hp q hq hne hpt hheq
    have hqt : jsTruthy q.textHash = true := by rw [← hheq]; exact hpt
    rcases hashGroupFold_complete pages [] p hp hpt with ⟨g1, hg1, hpg1⟩
    rcases hashGroupFold_complete pages [] q hq hqt with ⟨g2, hg2, hqg2⟩
    have hkeys : ((hashGroupFold [] pages).map Prod.fst).Nodup :=
      nodup_keys_hashGroupFold pages [] (by simp)
    have hkeq : q.textHash.getD "" = p.textHash.getD "" := by rw [hheq]
    have hg2' : ((p.textHash.getD "", g2) : String × List DupPage) ∈
        hashGroupFold [] pages := hkeq ▸ hg2
    have hpair : ((p.textHash.getD "", g1) : String × List DupPage) =
        (p.textHash.getD "", g2) :=
      List.inj_on_of_nodup_map hkeys hg1 hg2' rfl
    have hg12 : g1 = g2 := congrArg Prod.snd hpair
    have hqg1 : q ∈ g1 := by rw [hg12]; exact hqg2
    have hlen : 1 < g1.length := one_lt_length_of_two_mem hpg1 hqg1 hne
    have hfil : ((p.textHash.getD "", g1) : String × List DupPage) ∈
        (hashGroupFold [] pages).filter (fun e => 1 < e.2.length) :=
      List.mem_filter.mpr ⟨hg1, by simpa using hlen⟩
    refine ⟨exactGroupOfEntry g1, List.mem_map.mpr ⟨_, hfil, rfl⟩, ?_, ?_⟩
    · exact ⟨⟨p.id, p.pageNumber, 1⟩, List.mem_map.mpr ⟨p, hpg1, rfl⟩, rfl, rfl⟩
    · exact ⟨⟨q.id, q.pageNumber, 1⟩, List.mem_map.mpr ⟨q, hqg1, rfl⟩, rfl, rfl⟩

theorem exactDuplicates_spec_witness :
    List.Sorted dupPageLE wDupPages ∧
    exactDuplicates wDupPages =
      [{ pages := [⟨"p1", 1, 1⟩, ⟨"p2", 2, 1⟩]
         primaryPageId := "p1", primaryPageNumber := 1 }] ∧
    (∃ g ∈ exactDuplicates wDupPages,
      (∃ m ∈ g.pages, m.id = (mkDupPage "p1" 1 (Option.some "hashA")).id ∧
        m.pageNumber = (mkDupPage "p1" 1 (Option.some "hashA")).pageNumber) ∧
      (∃ m ∈ g.pages, m.id = (mkDupPage "p2" 2 (Option.some "hashA")).id ∧
        m.pageNumber = (mkDupPage "p2" 2 (Option.some "hashA")).pageNumber)) :=
  ⟨by decide, by decide,
   (exactDuplicates_spec wDupPages (by decide)).2
     (mkDupPage "p1" 1 (Option.some "hashA")) (by decide)
     (mkDupPage "p2" 2 (Option.some "hashA")) (by decide)
     (by decide) (by decide) (by decide)⟩
